import Mathlib

/-!
Formal model of the clustering and deduplication engine of the
tr-benchmarking repository (src/lsh).  Python floats are modelled as real
numbers, numpy 1-d arrays as lists of reals, Python dicts as association
lists that keep insertion order, and Python sets as `Finset`s (for the
candidate-pair set) or duplicate-free lists (for `doc_ids`).
-/

/-- Document identifiers are opaque strings (the repository uses string ids). -/
abbrev Doc := String

/-- Dense embedding vectors: numpy 1-d arrays of floats, modelled as lists of reals. -/
abbrev Vec := List ℝ

/-- Dot product of two vectors, `np.dot` on 1-d arrays. -/
noncomputable def dotV (u v : Vec) : ℝ := (List.zipWith (fun a b => a * b) u v).sum

/-- Squared Euclidean norm of a vector. -/
noncomputable def normSqV (v : Vec) : ℝ := dotV v v

/-- Euclidean norm, `np.linalg.norm`. -/
noncomputable def normV (v : Vec) : ℝ := Real.sqrt (normSqV v)

/-- Elementwise difference of two vectors, `a - b` on numpy arrays. -/
noncomputable def subV (u v : Vec) : Vec := List.zipWith (fun a b => a - b) u v

/-- Elementwise sum of two vectors, `a + b` on numpy arrays. -/
noncomputable def addVec (u v : Vec) : Vec := List.zipWith (fun a b => a + b) u v

/-- Sum of a list of vectors (the reduction inside `np.mean(..., axis=0)`). -/
noncomputable def sumVecs : List Vec → Vec
  | [] => []
  | v :: vs => vs.foldl addVec v

/-- Scalar multiple of a vector. -/
noncomputable def smulV (c : ℝ) (v : Vec) : Vec := v.map (fun a => c * a)

/-- Arithmetic mean of a list of vectors, `np.mean(embs, axis=0)`. -/
noncomputable def meanVec (vs : List Vec) : Vec := smulV (1 / (vs.length : ℝ)) (sumVecs vs)

/-- Python exception outcomes relevant to `LSHIndex.__init__`. -/
inductive PyErr where
  | valueError : PyErr
  | zeroDivisionError : PyErr
deriving DecidableEq

/-- State of `LSHIndex` (src/lsh/lsh_index.py): hyperplanes, one bucket table per
band (a dict from band key to the list of doc ids appended to that bucket), and
the set of already-added ids (a duplicate-free list). -/
structure LSHIndex where
  input_dim : ℕ
  num_bits : ℕ
  num_bands : ℕ
  rows_per_band : ℕ
  hyperplanes : List Vec
  band_tables : List (List (List Bool × List Doc))
  doc_ids : List Doc

/-- LSHIndex.__init__: `rows_per_band = num_bits // num_bands` raises
ZeroDivisionError in Python when `num_bands = 0`; otherwise the divisibility
check raises ValueError ("num_bits must be divisible by num_bands") exactly when
`num_bits % num_bands ≠ 0`.  The numpy hyperplane sampler is external; it is
passed in as a deterministic function `randn` of the seed and the shape. -/
def LSHIndex.init (randn : ℕ → ℕ → ℕ → List Vec) (input_dim : ℕ) (num_bits : ℕ)
    (num_bands : ℕ) (seed : ℕ) : Except PyErr LSHIndex :=
  if num_bands = 0 then .error .zeroDivisionError
  else if num_bits % num_bands ≠ 0 then .error .valueError
  else .ok {
    input_dim := input_dim
    num_bits := num_bits
    num_bands := num_bands
    rows_per_band := num_bits / num_bands
    hyperplanes := randn seed num_bits input_dim
    band_tables := List.replicate num_bands []
    doc_ids := [] }

/-- LSHIndex._compute_signature: the sign bits of the projections of `v` onto the
hyperplanes (`(projections >= 0).astype(int)`). -/
noncomputable def LSHIndex.compute_signature (idx : LSHIndex) (v : Vec) : List Bool :=
  idx.hyperplanes.map (fun h => decide (0 ≤ dotV h v))

/-- Append `d` to the bucket of `key` in a band table; a missing key gets a fresh
bucket (defaultdict(list) followed by append). -/
def appendToBucket : List (List Bool × List Doc) → List Bool → Doc → List (List Bool × List Doc)
  | [], key, d => [(key, [d])]
  | (k, ds) :: rest, key, d =>
    if k = key then (k, ds ++ [d]) :: rest else (k, ds) :: appendToBucket rest key d

/-- LSHIndex.add: a previously-seen doc id returns immediately; otherwise the
signature is computed and the id is appended to the bucket of slice
`signature[i*rows_per_band : (i+1)*rows_per_band]` in every band table `i`,
and recorded in `doc_ids`. -/
noncomputable def LSHIndex.add (idx : LSHIndex) (vector : Vec) (doc_id : Doc) : LSHIndex :=
  if doc_id ∈ idx.doc_ids then idx
  else
    let signature := idx.compute_signature vector
    { idx with
      band_tables := idx.band_tables.enum.map (fun p =>
        appendToBucket p.2
          ((signature.drop (p.1 * idx.rows_per_band)).take idx.rows_per_band) doc_id)
      doc_ids := idx.doc_ids ++ [doc_id] }

/-- Canonical unordered pair: `sorted((a, b))` in Python, lexicographic on strings. -/
def sortPair (a b : Doc) : Doc × Doc := if a ≤ b then (a, b) else (b, a)

/-- All canonical pairs of elements at distinct positions of a bucket (the
`for i ... for j in range(i+1, ...)` double loop, collected into a set). -/
def pairsOf : List Doc → Finset (Doc × Doc)
  | [] => ∅
  | a :: rest => (rest.map (sortPair a)).toFinset ∪ pairsOf rest

/-- LSHIndex.get_candidates: the set of canonical pairs of ids that share a
bucket of size at least 2 in some band. -/
def LSHIndex.get_candidates (idx : LSHIndex) : Finset (Doc × Doc) :=
  idx.band_tables.foldl (fun cands table =>
    table.foldl (fun cands2 bucket =>
      if bucket.2.length > 1 then cands2 ∪ pairsOf bucket.2 else cands2) cands) ∅

/-- C8: with a positive band count, constructing the LSH index fails with the
invalid-configuration error (Python ValueError) exactly when `num_bits` is not
divisible by `num_bands`, and succeeds when it is. -/
theorem C8_init_invalid_configuration (randn : ℕ → ℕ → ℕ → List Vec)
    (input_dim num_bits num_bands seed : ℕ) (hb : 0 < num_bands) :
    (num_bits % num_bands ≠ 0 →
      LSHIndex.init randn input_dim num_bits num_bands seed = .error .valueError) ∧
    (num_bits % num_bands = 0 →
      ∃ idx, LSHIndex.init randn input_dim num_bits num_bands seed = .ok idx) := by
  constructor
  · intro hmod
    simp [LSHIndex.init, Nat.pos_iff_ne_zero.mp hb, hmod]
  · intro hmod
    unfold LSHIndex.init
    rw [if_neg (Nat.pos_iff_ne_zero.mp hb), if_neg (fun hc => hc hmod)]
    exact ⟨_, rfl⟩

/-- Hyperplane sampler used in concrete witnesses (its value is irrelevant to the
properties checked). -/
def wrandn : ℕ → ℕ → ℕ → List Vec := fun _ _ _ => []

/-- Witness for C8: at `num_bands = 2`, `num_bits = 7` is rejected with the
invalid-configuration error and `num_bits = 8` is accepted. -/
theorem C8_init_invalid_configuration_witness :
    LSHIndex.init wrandn 3 7 2 0 = .error .valueError ∧
    ∃ idx, LSHIndex.init wrandn 3 8 2 0 = .ok idx :=
  ⟨(C8_init_invalid_configuration wrandn 3 7 2 0 (by norm_num)).1 (by norm_num),
   (C8_init_invalid_configuration wrandn 3 8 2 0 (by norm_num)).2 (by norm_num)⟩

/-- C9: adding a vector under an already-present doc id leaves the whole index
state (band tables and doc id set included) unchanged. -/
theorem C9_add_idempotent (idx : LSHIndex) (vector : Vec) (doc_id : Doc)
    (h : doc_id ∈ idx.doc_ids) : idx.add vector doc_id = idx := by
  simp [LSHIndex.add, h]

/-- Concrete index state used by the C9 witness. -/
noncomputable def wIdx : LSHIndex := {
  input_dim := 1
  num_bits := 1
  num_bands := 1
  rows_per_band := 1
  hyperplanes := [[1]]
  band_tables := [[([true], [("a" : Doc)])]]
  doc_ids := [("a" : Doc)] }

/-- Witness for C9: re-adding the already present id leaves the index unchanged. -/
theorem C9_add_idempotent_witness : wIdx.add [(2 : ℝ)] ("a" : Doc) = wIdx :=
  C9_add_idempotent wIdx [(2 : ℝ)] ("a" : Doc) (by simp [wIdx])

lemma mem_pairsOf {bucket : List Doc} (hnd : bucket.Nodup) (a b : Doc) :
    (a, b) ∈ pairsOf bucket ↔ a < b ∧ a ∈ bucket ∧ b ∈ bucket := by
  induction bucket with
  | nil => simp [pairsOf]
  | cons x rest ih =>
    rw [List.nodup_cons] at hnd
    constructor
    · intro hmem
      rw [pairsOf, Finset.mem_union] at hmem
      rcases hmem with hmap | hrest
      · rw [List.mem_toFinset, List.mem_map] at hmap
        obtain ⟨y, hy, hxy⟩ := hmap
        have hne : x ≠ y := fun hxe => hnd.1 (hxe ▸ hy)
        by_cases hle : x ≤ y
        · rw [sortPair, if_pos hle] at hxy
          obtain ⟨rfl, rfl⟩ := Prod.ext_iff.mp hxy
          exact ⟨lt_of_le_of_ne hle hne, List.mem_cons_self x rest, List.mem_cons_of_mem x hy⟩
        · rw [sortPair, if_neg hle] at hxy
          obtain ⟨rfl, rfl⟩ := Prod.ext_iff.mp hxy
          exact ⟨lt_of_not_le hle, List.mem_cons_of_mem x hy, List.mem_cons_self x rest⟩
      · obtain ⟨hab, ha, hb⟩ := (ih hnd.2).mp hrest
        exact ⟨hab, List.mem_cons_of_mem x ha, List.mem_cons_of_mem x hb⟩
    · rintro ⟨hab, ha, hb⟩
      rw [pairsOf, Finset.mem_union]
      rcases List.mem_cons.mp ha with rfl | ha2
      · left
        rw [List.mem_toFinset, List.mem_map]
        have hb2 : b ∈ rest := by
          rcases List.mem_cons.mp hb with rfl | hb2
          · exact absurd rfl (ne_of_lt hab)
          · exact hb2
        exact ⟨b, hb2, by rw [sortPair, if_pos (le_of_lt hab)]⟩
      · rcases List.mem_cons.mp hb with rfl | hb2
        · left
          rw [List.mem_toFinset, List.mem_map]
          exact ⟨a, ha2, by rw [sortPair, if_neg (not_le_of_lt hab)]⟩
        · exact Or.inr ((ih hnd.2).mpr ⟨hab, ha2, hb2⟩)

lemma mem_candidates_inner (table : List (List Bool × List Doc)) (acc : Finset (Doc × Doc))
    (p : Doc × Doc) :
    p ∈ table.foldl (fun cands2 bucket =>
        if bucket.2.length > 1 then cands2 ∪ pairsOf bucket.2 else cands2) acc ↔
      p ∈ acc ∨ ∃ kb ∈ table, 1 < kb.2.length ∧ p ∈ pairsOf kb.2 := by
  induction table generalizing acc with
  | nil => simp
  | cons kb rest ih =>
    rw [List.foldl_cons, ih]
    by_cases h : 1 < kb.2.length
    · simp only [if_pos h, Finset.mem_union]
      constructor
      · rintro ((hp | hp) | hp)
        · exact Or.inl hp
        · exact Or.inr ⟨kb, List.mem_cons_self kb rest, h, hp⟩
        · obtain ⟨kb2, hkb2, hlen, hp2⟩ := hp
          exact Or.inr ⟨kb2, List.mem_cons_of_mem kb hkb2, hlen, hp2⟩
      · rintro (hp | ⟨kb2, hkb2, hlen, hp2⟩)
        · exact Or.inl (Or.inl hp)
        · rcases List.mem_cons.mp hkb2 with rfl | hkb2
          · exact Or.inl (Or.inr hp2)
          · exact Or.inr ⟨kb2, hkb2, hlen, hp2⟩
    · simp only [if_neg h]
      constructor
      · rintro (hp | ⟨kb2, hkb2, hlen, hp2⟩)
        · exact Or.inl hp
        · exact Or.inr ⟨kb2, List.mem_cons_of_mem kb hkb2, hlen, hp2⟩
      · rintro (hp | ⟨kb2, hkb2, hlen, hp2⟩)
        · exact Or.inl hp
        · rcases List.mem_cons.mp hkb2 with rfl | hkb2
          · exact absurd hlen h
          · exact Or.inr ⟨kb2, hkb2, hlen, hp2⟩

lemma mem_get_candidates (idx : LSHIndex) (p : Doc × Doc) :
    p ∈ idx.get_candidates ↔
      ∃ table ∈ idx.band_tables, ∃ kb ∈ table, 1 < kb.2.length ∧ p ∈ pairsOf kb.2 := by
  rw [LSHIndex.get_candidates]
  generalize idx.band_tables = tables
  have main : ∀ (tables : List (List (List Bool × List Doc))) (acc : Finset (Doc × Doc)),
      p ∈ tables.foldl (fun cands table => table.foldl (fun cands2 bucket =>
          if bucket.2.length > 1 then cands2 ∪ pairsOf bucket.2 else cands2) cands) acc ↔
        p ∈ acc ∨ ∃ table ∈ tables, ∃ kb ∈ table, 1 < kb.2.length ∧ p ∈ pairsOf kb.2 := by
    intro tables
    induction tables with
    | nil => simp
    | cons table rest ih =>
      intro acc
      rw [List.foldl_cons, ih, mem_candidates_inner]
      constructor
      · rintro ((hp | hp) | hp)
        · exact Or.inl hp
        · obtain ⟨kb, hkb, hlen, hp2⟩ := hp
          exact Or.inr ⟨table, List.mem_cons_self table rest, kb, hkb, hlen, hp2⟩
        · obtain ⟨t2, ht2, kb, hkb, hlen, hp2⟩ := hp
          exact Or.inr ⟨t2, List.mem_cons_of_mem table ht2, kb, hkb, hlen, hp2⟩
      · rintro (hp | ⟨t2, ht2, kb, hkb, hlen, hp2⟩)
        · exact Or.inl (Or.inl hp)
        · rcases List.mem_cons.mp ht2 with rfl | ht2
          · exact Or.inl (Or.inr ⟨kb, hkb, hlen, hp2⟩)
          · exact Or.inr ⟨t2, ht2, kb, hkb, hlen, hp2⟩
  rw [main tables ∅]
  simp

lemma one_lt_length_of_two_mem {l : List Doc} {a b : Doc} (ha : a ∈ l) (hb : b ∈ l)
    (hne : a ≠ b) : 1 < l.length := by
  match l with
  | [] => simp at ha
  | [x] =>
    simp at ha hb
    exact absurd (ha.trans hb.symm) hne
  | x :: y :: t => simp [List.length]

/-- C5: on a well-formed index state (no bucket holds a duplicated id, an
invariant of construction and `add`), `get_candidates` is the deduplicated set
of canonical unordered pairs: a pair `(a, b)` belongs to it exactly when
`a < b` lexicographically and the two distinct ids share some band bucket that
holds at least two ids.  The set representation itself rules out repeated
pairs, and the `a < b` component is the canonical ordering. -/
theorem C5_get_candidates_canonical_pairs (idx : LSHIndex)
    (hWF : ∀ table ∈ idx.band_tables, ∀ kb ∈ table, kb.2.Nodup) (a b : Doc) :
    (a, b) ∈ idx.get_candidates ↔
      a < b ∧ ∃ table ∈ idx.band_tables, ∃ kb ∈ table,
        1 < kb.2.length ∧ a ∈ kb.2 ∧ b ∈ kb.2 := by
  rw [mem_get_candidates]
  constructor
  · rintro ⟨table, htable, kb, hkb, hlen, hp⟩
    obtain ⟨hab, ha, hb⟩ := (mem_pairsOf (hWF table htable kb hkb) a b).mp hp
    exact ⟨hab, table, htable, kb, hkb, hlen, ha, hb⟩
  · rintro ⟨hab, table, htable, kb, hkb, hlen, ha, hb⟩
    exact ⟨table, htable, kb, hkb, hlen,
      (mem_pairsOf (hWF table htable kb hkb) a b).mpr ⟨hab, ha, hb⟩⟩

/-- Concrete index state used by the C5 witness: one band, one bucket holding
two distinct ids. -/
noncomputable def wIdx2 : LSHIndex := {
  input_dim := 1
  num_bits := 1
  num_bands := 1
  rows_per_band := 1
  hyperplanes := [[1]]
  band_tables := [[([true], [("b" : Doc), ("a" : Doc)])]]
  doc_ids := [("b" : Doc), ("a" : Doc)] }

/-- Witness for C5 at a concrete well-formed index state and the pair (a, b). -/
theorem C5_get_candidates_canonical_pairs_witness :
    ((("a" : Doc), ("b" : Doc)) ∈ wIdx2.get_candidates ↔
      ("a" : Doc) < ("b" : Doc) ∧ ∃ table ∈ wIdx2.band_tables, ∃ kb ∈ table,
        1 < kb.2.length ∧ ("a" : Doc) ∈ kb.2 ∧ ("b" : Doc) ∈ kb.2) :=
  C5_get_candidates_canonical_pairs wIdx2 (by simp [wIdx2]) ("a" : Doc) ("b" : Doc)

/-- Embeddings mapping: an association list from doc id to vector, keeping
Python dict insertion order. -/
abbrev Emb := List (Doc × Vec)

/-- Dict access `embeddings[uid]`; total with an irrelevant default, and the
theorems that depend on it carry the hypothesis that the key is present. -/
def getV (emb : Emb) (uid : Doc) : Vec := (List.lookup uid emb).getD []

/-- Cosine similarity exactly as `build_similarity_graph` computes it: defined
as 0 when either vector has zero Euclidean norm, and as
`dot / (norm1 * norm2)` otherwise. -/
noncomputable def cosineSim (u v : Vec) : ℝ :=
  if normV u = 0 ∨ normV v = 0 then 0 else dotV u v / (normV u * normV v)

/-- Undirected weighted graph: the node list and the list of weighted edges in
insertion order (networkx.Graph as used by the repository). -/
structure SimGraph where
  nodes : List Doc
  edges : List (Doc × Doc × ℝ)

/-- build_similarity_graph (src/lsh/clustering.py): all embedding keys become
nodes; every candidate pair whose two ids are present in the embeddings gets an
edge weighted by cosine similarity whenever that similarity reaches the
threshold; pairs with a missing id are skipped. -/
noncomputable def build_similarity_graph (candidates : List (Doc × Doc))
    (embeddings : Emb) (threshold : ℝ) : SimGraph :=
  { nodes := embeddings.map Prod.fst
    edges := candidates.filterMap (fun p =>
      if (List.lookup p.1 embeddings).isSome ∧ (List.lookup p.2 embeddings).isSome then
        (if threshold ≤ cosineSim (getV embeddings p.1) (getV embeddings p.2) then
          some (p.1, p.2, cosineSim (getV embeddings p.1) (getV embeddings p.2))
        else none)
      else none) }

/-- Edge relation of the undirected graph. -/
def hasEdge (G : SimGraph) (u v : Doc) : Prop :=
  (∃ w, (u, v, w) ∈ G.edges) ∨ (∃ w, (v, u, w) ∈ G.edges)

lemma dotV_comm (u v : Vec) : dotV u v = dotV v u := by
  unfold dotV
  congr 1
  induction u generalizing v with
  | nil => cases v <;> simp
  | cons a u ih =>
    cases v with
    | nil => simp
    | cons b v => simp [ih, mul_comm]

lemma cosineSim_comm (u v : Vec) : cosineSim u v = cosineSim v u := by
  by_cases h : normV u = 0 ∨ normV v = 0
  · rw [cosineSim, if_pos h, cosineSim, if_pos h.symm]
  · rw [cosineSim, if_neg h, cosineSim, if_neg (fun hc => h hc.symm), dotV_comm,
      mul_comm]

lemma mem_build_edges {candidates : List (Doc × Doc)} {embeddings : Emb}
    {threshold : ℝ} {a b : Doc} {w : ℝ} :
    (a, b, w) ∈ (build_similarity_graph candidates embeddings threshold).edges ↔
      (a, b) ∈ candidates ∧ (List.lookup a embeddings).isSome ∧
      (List.lookup b embeddings).isSome ∧
      w = cosineSim (getV embeddings a) (getV embeddings b) ∧ threshold ≤ w := by
  simp only [build_similarity_graph, List.mem_filterMap]
  constructor
  · rintro ⟨⟨p1, p2⟩, hp, hf⟩
    by_cases hcond : (List.lookup p1 embeddings).isSome ∧ (List.lookup p2 embeddings).isSome
    · rw [if_pos hcond] at hf
      by_cases hsim : threshold ≤ cosineSim (getV embeddings p1) (getV embeddings p2)
      · rw [if_pos hsim] at hf
        rw [Option.some_inj, Prod.mk.injEq, Prod.mk.injEq] at hf
        obtain ⟨rfl, rfl, rfl⟩ := hf
        exact ⟨hp, hcond.1, hcond.2, rfl, hsim⟩
      · rw [if_neg hsim] at hf
        cases hf
    · rw [if_neg hcond] at hf
      cases hf
  · rintro ⟨hc, hu, hv, rfl, hsim⟩
    exact ⟨(a, b), hc, by rw [if_pos ⟨hu, hv⟩, if_pos hsim]⟩

/-- C2: for a candidate pair `(u, v)` whose two ids are present in the
embeddings, the builder computes cosine similarity (0 when either norm is 0),
puts an edge between `u` and `v` exactly when that similarity is greater than
or equal to the threshold (boundary inclusive), and every edge between them
carries the similarity as its weight. -/
theorem C2_similarity_graph_edge_iff (candidates : List (Doc × Doc))
    (embeddings : Emb) (threshold : ℝ) (u v : Doc) (hc : (u, v) ∈ candidates)
    (hu : (List.lookup u embeddings).isSome) (hv : (List.lookup v embeddings).isSome) :
    (normV (getV embeddings u) = 0 ∨ normV (getV embeddings v) = 0 →
      cosineSim (getV embeddings u) (getV embeddings v) = 0) ∧
    (hasEdge (build_similarity_graph candidates embeddings threshold) u v ↔
      threshold ≤ cosineSim (getV embeddings u) (getV embeddings v)) ∧
    (∀ w, (u, v, w) ∈ (build_similarity_graph candidates embeddings threshold).edges ∨
        (v, u, w) ∈ (build_similarity_graph candidates embeddings threshold).edges →
      w = cosineSim (getV embeddings u) (getV embeddings v)) := by
  refine ⟨fun h0 => by rw [cosineSim, if_pos h0], ⟨?_, ?_⟩, ?_⟩
  · rintro (⟨w, hw⟩ | ⟨w, hw⟩)
    · obtain ⟨-, -, -, rfl, hsim⟩ := mem_build_edges.mp hw
      exact hsim
    · obtain ⟨-, -, -, rfl, hsim⟩ := mem_build_edges.mp hw
      rw [cosineSim_comm] at hsim
      exact hsim
  · intro hsim
    exact Or.inl ⟨_, mem_build_edges.mpr ⟨hc, hu, hv, rfl, hsim⟩⟩
  · rintro w (hw | hw)
    · obtain ⟨-, -, -, rfl, -⟩ := mem_build_edges.mp hw
      rfl
    · obtain ⟨-, -, -, rfl, -⟩ := mem_build_edges.mp hw
      exact cosineSim_comm _ _

/-- Doc id constants for concrete witnesses. -/
def dA : Doc := "a"

/-- Doc id constant for concrete witnesses. -/
def dB : Doc := "b"

/-- Witness for C2 at one candidate pair, two one-dimensional embeddings and
threshold 1/2. -/
theorem C2_similarity_graph_edge_iff_witness :
    (normV (getV [(dA, [1]), (dB, [1])] dA) = 0 ∨
        normV (getV [(dA, [1]), (dB, [1])] dB) = 0 →
      cosineSim (getV [(dA, [1]), (dB, [1])] dA) (getV [(dA, [1]), (dB, [1])] dB) = 0) ∧
    (hasEdge (build_similarity_graph [(dA, dB)] [(dA, [1]), (dB, [1])] (1 / 2)) dA dB ↔
      (1 / 2 : ℝ) ≤ cosineSim (getV [(dA, [1]), (dB, [1])] dA) (getV [(dA, [1]), (dB, [1])] dB)) ∧
    (∀ w, (dA, dB, w) ∈ (build_similarity_graph [(dA, dB)] [(dA, [1]), (dB, [1])] (1 / 2)).edges ∨
        (dB, dA, w) ∈ (build_similarity_graph [(dA, dB)] [(dA, [1]), (dB, [1])] (1 / 2)).edges →
      w = cosineSim (getV [(dA, [1]), (dB, [1])] dA) (getV [(dA, [1]), (dB, [1])] dB)) :=
  C2_similarity_graph_edge_iff [(dA, dB)] [(dA, [1]), (dB, [1])] (1 / 2) dA dB
    (by simp) (by simp [dA]) (by simp [dA, dB])


lemma lookup_cons_self {α β : Type} [BEq α] [LawfulBEq α] (k : α) (b : β)
    (es : List (α × β)) : List.lookup k ((k, b) :: es) = some b := by
  simp [List.lookup_cons]

lemma lookup_cons_ne {α β : Type} [BEq α] [LawfulBEq α] {a k : α} (h : a ≠ k) (b : β)
    (es : List (α × β)) : List.lookup a ((k, b) :: es) = List.lookup a es := by
  rw [List.lookup_cons]
  have hb : (a == k) = false := beq_eq_false_iff_ne.mpr h
  rw [hb]

/-- Append `x` to the group of `cid` in an association list of groups
(`defaultdict(list)`: an existing key keeps its position, a new key is appended
at the end with a fresh singleton list). -/
def addToGroup {α : Type} : List (Int × List α) → Int → α → List (Int × List α)
  | [], cid, x => [(cid, [x])]
  | (k, xs) :: rest, cid, x =>
    if k = cid then (k, xs ++ [x]) :: rest else (k, xs) :: addToGroup rest cid x

/-- Generic grouping fold over an already-extracted (key, value) list. -/
def gfold {α : Type} (l : List (Int × α)) (acc : List (Int × List α)) : List (Int × List α) :=
  l.foldl (fun acc2 kv => addToGroup acc2 kv.1 kv.2) acc

lemma lookup_addToGroup {α : Type} (groups : List (Int × List α)) (cid : Int) (x : α)
    (c : Int) :
    List.lookup c (addToGroup groups cid x) =
      if c = cid then some (((List.lookup cid groups).getD []) ++ [x])
      else List.lookup c groups := by
  induction groups with
  | nil =>
    by_cases h : c = cid
    · subst h
      rw [addToGroup, if_pos rfl, lookup_cons_self]
      simp
    · rw [addToGroup, if_neg h, lookup_cons_ne h]
  | cons g rest ih =>
    obtain ⟨gk, xs⟩ := g
    by_cases hg : gk = cid
    · subst hg
      by_cases h : c = gk
      · subst h
        rw [addToGroup, if_pos rfl, if_pos rfl, lookup_cons_self, lookup_cons_self]
        simp
      · rw [addToGroup, if_pos rfl, if_neg h, lookup_cons_ne h, lookup_cons_ne h]
    · rw [addToGroup, if_neg hg]
      by_cases h : c = gk
      · subst h
        rw [lookup_cons_self, if_neg hg, lookup_cons_self]
      · rw [lookup_cons_ne h, lookup_cons_ne h, ih]
        by_cases hc : c = cid
        · rw [if_pos hc, if_pos hc, lookup_cons_ne (fun hc2 : cid = gk => hg hc2.symm)]
        · rw [if_neg hc, if_neg hc]

lemma gfold_lookup {α : Type} (l : List (Int × α)) :
    ∀ (acc : List (Int × List α)) (c : Int),
      List.lookup c (gfold l acc) =
        match List.lookup c acc with
        | some ms => some (ms ++ (l.filter (fun kv => kv.1 = c)).map Prod.snd)
        | none =>
          if c ∈ l.map Prod.fst then
            some ((l.filter (fun kv => kv.1 = c)).map Prod.snd)
          else none := by
  induction l with
  | nil =>
    intro acc c
    cases hacc : List.lookup c acc with
    | some ms => simp [gfold, hacc]
    | none => simp [gfold, hacc]
  | cons kv rest ih =>
    intro acc c
    obtain ⟨k, x⟩ := kv
    have step : gfold ((k, x) :: rest) acc = gfold rest (addToGroup acc k x) := rfl
    rw [step, ih]
    rw [lookup_addToGroup]
    by_cases hk : c = k
    · subst hk
      rw [if_pos rfl]
      have hfil : ((c, x) :: rest).filter (fun kv => kv.1 = c) =
          (c, x) :: rest.filter (fun kv => kv.1 = c) := by
        rw [List.filter_cons]
        simp
      rw [hfil]
      cases hacc : List.lookup c acc with
      | some ms => simp
      | none => simp
    · have hfil : ((k, x) :: rest).filter (fun kv => kv.1 = c) =
          rest.filter (fun kv => kv.1 = c) := by
        rw [List.filter_cons]
        have hd : (decide (((k, x) : Int × α).1 = c)) = false := by
          simp only [decide_eq_false_iff_not]
          exact fun hc => hk hc.symm
        rw [hd]
        simp
      rw [if_neg hk, hfil]
      cases hacc : List.lookup c acc with
      | some ms => simp
      | none =>
        simp only [List.map_cons, List.mem_cons, hk, false_or]

lemma addToGroup_keys {α : Type} (groups : List (Int × List α)) (cid : Int) (x : α)
    (k : Int) :
    k ∈ (addToGroup groups cid x).map Prod.fst ↔ k = cid ∨ k ∈ groups.map Prod.fst := by
  induction groups with
  | nil => simp [addToGroup]
  | cons g rest ih =>
    obtain ⟨gk, xs⟩ := g
    by_cases h : gk = cid
    · subst h
      simp [addToGroup]
    · simp [addToGroup, h, ih]
      tauto

lemma addToGroup_keys_nodup {α : Type} (groups : List (Int × List α)) (cid : Int) (x : α)
    (h : (groups.map Prod.fst).Nodup) : ((addToGroup groups cid x).map Prod.fst).Nodup := by
  induction groups with
  | nil => simp [addToGroup]
  | cons g rest ih =>
    obtain ⟨gk, xs⟩ := g
    simp only [List.map_cons, List.nodup_cons] at h
    by_cases hg : gk = cid
    · subst hg
      rw [addToGroup, if_pos rfl]
      simp only [List.map_cons, List.nodup_cons]
      exact h
    · rw [addToGroup, if_neg hg]
      simp only [List.map_cons, List.nodup_cons]
      refine ⟨fun hc => ?_, ih h.2⟩
      rcases (addToGroup_keys rest cid x gk).mp hc with rfl | hmem
      · exact hg rfl
      · exact h.1 hmem

lemma gfold_keys_nodup {α : Type} (l : List (Int × α)) :
    ∀ (acc : List (Int × List α)), ((acc.map Prod.fst).Nodup) →
      (((gfold l acc).map Prod.fst).Nodup) := by
  induction l with
  | nil => intro acc h; exact h
  | cons kv rest ih =>
    intro acc h
    exact ih (addToGroup acc kv.1 kv.2) (addToGroup_keys_nodup acc kv.1 kv.2 h)

lemma lookup_eq_some_of_mem_nodup {α : Type} {l : List (Int × α)} {c : Int} {v : α}
    (hnd : (l.map Prod.fst).Nodup) : (c, v) ∈ l ↔ List.lookup c l = some v := by
  induction l with
  | nil => simp
  | cons kv rest ih =>
    obtain ⟨k, x⟩ := kv
    simp only [List.map_cons, List.nodup_cons] at hnd
    constructor
    · intro hmem
      rcases List.mem_cons.mp hmem with heq | hmem2
      · rw [Prod.ext_iff] at heq
        obtain ⟨rfl, rfl⟩ := heq
        exact lookup_cons_self c v rest
      · have hne : c ≠ k := by
          rintro rfl
          exact hnd.1 (List.mem_map.mpr ⟨(c, v), hmem2, rfl⟩)
        rw [lookup_cons_ne hne]
        exact (ih hnd.2).mp hmem2
    · intro hlook
      by_cases hck : c = k
      · subst hck
        rw [lookup_cons_self] at hlook
        rw [Option.some_inj] at hlook
        subst hlook
        exact List.mem_cons_self _ _
      · rw [lookup_cons_ne hck] at hlook
        exact List.mem_cons_of_mem _ ((ih hnd.2).mpr hlook)

/-- Grouping loop of get_cluster_representatives:
`clusters[cluster_id].append(doc_id)` over the partition items in order. -/
def groupByLabel (partition : List (Doc × Int)) : List (Int × List Doc) :=
  partition.foldl (fun acc p => addToGroup acc p.2 p.1) []

lemma groupByLabel_eq_gfold (partition : List (Doc × Int)) :
    groupByLabel partition = gfold (partition.map (fun p => (p.2, p.1))) [] := by
  rw [groupByLabel, gfold, List.foldl_map]

lemma groupByLabel_lookup (partition : List (Doc × Int)) (c : Int) :
    List.lookup c (groupByLabel partition) =
      if c ∈ partition.map Prod.snd then
        some ((partition.filter (fun p => p.2 = c)).map Prod.fst)
      else none := by
  rw [groupByLabel_eq_gfold, gfold_lookup]
  have hfm : (partition.map (fun p => (p.2, p.1))).filter (fun kv => kv.1 = c) =
      (partition.filter (fun p => p.2 = c)).map (fun p => (p.2, p.1)) := by
    rw [List.filter_map]
    rfl
  have hkeys : (partition.map (fun p => (p.2, p.1))).map Prod.fst = partition.map Prod.snd := by
    rw [List.map_map]
    rfl
  simp only [List.lookup, hfm, hkeys, List.map_map]
  by_cases h : c ∈ partition.map Prod.snd
  · rw [if_pos h, if_pos h]
    rfl
  · rw [if_neg h, if_neg h]

lemma groupByLabel_keys_nodup (partition : List (Doc × Int)) :
    ((groupByLabel partition).map Prod.fst).Nodup := by
  rw [groupByLabel_eq_gfold]
  exact gfold_keys_nodup _ [] (by simp)

lemma groupByLabel_mem (partition : List (Doc × Int)) (c : Int) (ms : List Doc) :
    (c, ms) ∈ groupByLabel partition ↔
      c ∈ partition.map Prod.snd ∧
      ms = (partition.filter (fun p => p.2 = c)).map Prod.fst := by
  rw [lookup_eq_some_of_mem_nodup (groupByLabel_keys_nodup partition),
    groupByLabel_lookup]
  by_cases h : c ∈ partition.map Prod.snd
  · rw [if_pos h, Option.some_inj]
    constructor
    · intro he
      exact ⟨h, he.symm⟩
    · intro he
      exact he.2.symm
  · simp [h]

/-- The representative-search loop of get_cluster_representatives: `best_rep`
starts at the first member, `min_dist` at `float('inf')` (the top element of
`WithTop ℝ`), and a strictly smaller Euclidean distance to the centroid updates
both. -/
noncomputable def medoidLoop (centroid : Vec) : List (Doc × Vec) → Doc → WithTop ℝ → Doc
  | [], best, _ => best
  | (uid, e) :: rest, best, minDist =>
    if (normV (subV e centroid) : WithTop ℝ) < minDist then
      medoidLoop centroid rest uid (normV (subV e centroid))
    else
      medoidLoop centroid rest best minDist

/-- get_cluster_representatives (src/lsh/clustering.py): group the partition by
label, skip empty member lists, return the sole member of a singleton cluster
directly, and otherwise return the member closest (strictly-improving scan, so
first minimum wins) to the arithmetic centroid of the members' embeddings. -/
noncomputable def get_cluster_representatives (partition : List (Doc × Int))
    (embeddings : Emb) : List (Int × Doc) :=
  (groupByLabel partition).filterMap (fun g =>
    match g.2 with
    | [] => none
    | [m] => some (g.1, m)
    | m :: ms =>
      some (g.1, medoidLoop (meanVec ((m :: ms).map (getV embeddings)))
        ((m :: ms).zip ((m :: ms).map (getV embeddings))) m ⊤))

/-- Representative-selection step of LSHEvaluationPipeline.run_clustering
(src/lsh/pipeline.py): noise entries are filtered out of the partition before
get_cluster_representatives is called. -/
noncomputable def run_clustering_representatives (partition : List (Doc × Int))
    (embeddings : Emb) : List (Int × Doc) :=
  get_cluster_representatives (partition.filter (fun p => p.2 ≠ -1)) embeddings

lemma get_cluster_representatives_keys (partition : List (Doc × Int)) (embeddings : Emb)
    (c : Int) (h : c ∈ (get_cluster_representatives partition embeddings).map Prod.fst) :
    c ∈ partition.map Prod.snd := by
  rw [List.mem_map] at h
  obtain ⟨p, hp, rfl⟩ := h
  rw [get_cluster_representatives, List.mem_filterMap] at hp
  obtain ⟨⟨gc, gms⟩, hg, hfg⟩ := hp
  have hkey : gc = p.1 := by
    cases gms with
    | nil => cases hfg
    | cons m ms =>
      cases ms with
      | nil =>
        rw [Option.some_inj] at hfg
        rw [← hfg]
      | cons m2 ms2 =>
        rw [Option.some_inj] at hfg
        rw [← hfg]
  exact hkey ▸ ((groupByLabel_mem partition gc gms).mp hg).1

/-- C1 (counterexample to the claim as stated): get_cluster_representatives,
applied directly to a partition that labels a document -1, does assign a
representative to the label -1. -/
theorem C1_noise_representative_counterexample :
    (-1 : Int) ∈ (get_cluster_representatives [(dA, -1)] [(dA, [1])]).map Prod.fst := by
  simp [get_cluster_representatives, groupByLabel, addToGroup]

/-- C1 (amended): the pipeline (run_clustering) filters label -1 entries out of
the partition before calling get_cluster_representatives, so the representative
mapping it produces never contains an entry for the noise label -1. -/
theorem C1_pipeline_representatives_no_noise (partition : List (Doc × Int))
    (embeddings : Emb) :
    (-1 : Int) ∉ (run_clustering_representatives partition embeddings).map Prod.fst := by
  intro h
  rw [run_clustering_representatives] at h
  have h2 := get_cluster_representatives_keys _ embeddings _ h
  rw [List.mem_map] at h2
  obtain ⟨p, hp, hpc⟩ := h2
  rw [List.mem_filter] at hp
  exact (of_decide_eq_true hp.2) hpc

lemma zip_self_map {α β : Type} (l : List α) (f : α → β) :
    l.zip (l.map f) = l.map (fun x => (x, f x)) := by
  induction l with
  | nil => rfl
  | cons a t ih => simp [ih]

lemma medoidLoop_spec (centroid : Vec) :
    ∀ (pairs : List (Doc × Vec)) (best : Doc) (minD : WithTop ℝ),
      ((∀ q ∈ pairs, ¬((normV (subV q.2 centroid) : WithTop ℝ) < minD)) ∧
        medoidLoop centroid pairs best minD = best) ∨
      (∃ pre uid e post, pairs = pre ++ (uid, e) :: post ∧
        ((normV (subV e centroid) : WithTop ℝ) < minD) ∧
        (∀ q ∈ pre, normV (subV e centroid) < normV (subV q.2 centroid)) ∧
        (∀ q ∈ pairs, normV (subV e centroid) ≤ normV (subV q.2 centroid)) ∧
        medoidLoop centroid pairs best minD = uid) := by
  intro pairs
  induction pairs with
  | nil =>
    intro best minD
    left
    exact ⟨by simp, rfl⟩
  | cons p rest ih =>
    intro best minD
    obtain ⟨uid, e⟩ := p
    by_cases h : (normV (subV e centroid) : WithTop ℝ) < minD
    · rw [medoidLoop, if_pos h]
      rcases ih uid (normV (subV e centroid)) with ⟨hnone, heq⟩ |
        ⟨pre, uid2, e2, post, heqd, hlt, hpre, hglob, hres⟩
      · right
        refine ⟨[], uid, e, rest, by simp, h, by simp, ?_, heq⟩
        intro q hq
        rcases List.mem_cons.mp hq with rfl | hq2
        · exact le_refl _
        · exact WithTop.coe_le_coe.mp (not_lt.mp (hnone q hq2))
      · right
        refine ⟨(uid, e) :: pre, uid2, e2, post, by rw [heqd]; rfl, lt_trans hlt h, ?_, ?_, hres⟩
        · intro q hq
          rcases List.mem_cons.mp hq with rfl | hq2
          · exact WithTop.coe_lt_coe.mp hlt
          · exact hpre q hq2
        · intro q hq
          rcases List.mem_cons.mp hq with rfl | hq2
          · exact le_of_lt (WithTop.coe_lt_coe.mp hlt)
          · exact hglob q (heqd ▸ hq2)
    · rw [medoidLoop, if_neg h]
      rcases ih best minD with ⟨hnone, heq⟩ |
        ⟨pre, uid2, e2, post, heqd, hlt, hpre, hglob, hres⟩
      · left
        refine ⟨?_, heq⟩
        intro q hq
        rcases List.mem_cons.mp hq with rfl | hq2
        · exact h
        · exact hnone q hq2
      · right
        have hee : (normV (subV e2 centroid) : WithTop ℝ) < (normV (subV e centroid) : WithTop ℝ) :=
          lt_of_lt_of_le hlt (not_lt.mp h)
        refine ⟨(uid, e) :: pre, uid2, e2, post, by rw [heqd]; rfl, hlt, ?_, ?_, hres⟩
        · intro q hq
          rcases List.mem_cons.mp hq with rfl | hq2
          · exact WithTop.coe_lt_coe.mp hee
          · exact hpre q hq2
        · intro q hq
          rcases List.mem_cons.mp hq with rfl | hq2
          · exact le_of_lt (WithTop.coe_lt_coe.mp hee)
          · exact hglob q (heqd ▸ hq2)

lemma filterMap_keys_sublist {β : Type} (f : (Int × List Doc) → Option (Int × β))
    (hf : ∀ g r, f g = some r → r.1 = g.1) :
    ∀ (groups : List (Int × List Doc)),
      (((groups.filterMap f).map Prod.fst).Sublist (groups.map Prod.fst)) := by
  intro groups
  induction groups with
  | nil => simp
  | cons g rest ih =>
    cases hfg : f g with
    | none =>
      rw [List.filterMap_cons_none hfg, List.map_cons]
      exact ih.cons g.1
    | some r =>
      rw [List.filterMap_cons_some hfg, List.map_cons, List.map_cons, hf g r hfg]
      exact ih.cons₂ g.1

lemma reps_key_of_some (g : Int × List Doc) (r : Int × Doc) (embeddings : Emb)
    (hfg : (match g.2 with
      | [] => none
      | [m] => some (g.1, m)
      | m :: ms =>
        some (g.1, medoidLoop (meanVec ((m :: ms).map (getV embeddings)))
          ((m :: ms).zip ((m :: ms).map (getV embeddings))) m ⊤)) = some r) :
    r.1 = g.1 := by
  cases hms : g.2 with
  | nil => rw [hms] at hfg; cases hfg
  | cons m ms =>
    cases ms with
    | nil =>
      rw [hms] at hfg
      rw [Option.some_inj] at hfg
      rw [← hfg]
    | cons m2 ms2 =>
      rw [hms] at hfg
      rw [Option.some_inj] at hfg
      rw [← hfg]

lemma reps_keys_nodup (partition : List (Doc × Int)) (embeddings : Emb) :
    (((get_cluster_representatives partition embeddings).map Prod.fst).Nodup) :=
  ((filterMap_keys_sublist _ (fun g r h => reps_key_of_some g r embeddings h)
    (groupByLabel partition)).nodup (groupByLabel_keys_nodup partition))

/-- C4: for every cluster of the partition, a singleton cluster's sole member is
its representative, and a cluster of two or more members gets the member with
minimum Euclidean distance to the arithmetic centroid of the members'
embeddings, the first such member in cluster order winning ties. -/
theorem C4_representative_is_first_medoid (partition : List (Doc × Int))
    (embeddings : Emb) (cid : Int) (members : List Doc)
    (hmem : (cid, members) ∈ groupByLabel partition) :
    (∀ m, members = [m] →
      List.lookup cid (get_cluster_representatives partition embeddings) = some m) ∧
    (2 ≤ members.length → ∃ r pre post,
      List.lookup cid (get_cluster_representatives partition embeddings) = some r ∧
      members = pre ++ r :: post ∧
      (∀ m ∈ pre,
        normV (subV (getV embeddings r) (meanVec (members.map (getV embeddings)))) <
          normV (subV (getV embeddings m) (meanVec (members.map (getV embeddings))))) ∧
      (∀ m ∈ members,
        normV (subV (getV embeddings r) (meanVec (members.map (getV embeddings)))) ≤
          normV (subV (getV embeddings m) (meanVec (members.map (getV embeddings)))))) := by
  constructor
  · intro m hm
    subst hm
    have hmem2 : (cid, m) ∈ get_cluster_representatives partition embeddings := by
      rw [get_cluster_representatives, List.mem_filterMap]
      exact ⟨(cid, [m]), hmem, rfl⟩
    exact (lookup_eq_some_of_mem_nodup (reps_keys_nodup partition embeddings)).mp hmem2
  · intro hlen
    match members, hmem, hlen with
    | m :: m2 :: tail, hmem, hlen =>
      set centroid := meanVec ((m :: m2 :: tail).map (getV embeddings)) with hcen
      set pairs := (m :: m2 :: tail).zip ((m :: m2 :: tail).map (getV embeddings)) with hpairs
      have hpairs2 : pairs = (m :: m2 :: tail).map (fun x => (x, getV embeddings x)) := by
        rw [hpairs, zip_self_map]
      rcases medoidLoop_spec centroid pairs m ⊤ with ⟨hnone, -⟩ |
        ⟨pre, uid, e, post, heqd, -, hpre, hglob, hres⟩
      · exfalso
        have hin : (m, getV embeddings m) ∈ pairs := by
          rw [hpairs2]
          exact List.mem_map.mpr ⟨m, List.mem_cons_self _ _, rfl⟩
        exact hnone _ hin (WithTop.coe_lt_top _)
      · rw [hpairs2] at heqd
        rw [List.map_eq_append_iff] at heqd
        obtain ⟨l1, l2, hsplit, hmap1, hmap2⟩ := heqd
        rw [List.map_eq_cons_iff] at hmap2
        obtain ⟨a, l3, hl2, hga, hmap3⟩ := hmap2
        have ha : a = uid := congrArg Prod.fst hga
        have he : getV embeddings a = e := congrArg Prod.snd hga
        subst ha
        have hmemr : (cid, medoidLoop centroid pairs m ⊤) ∈
            get_cluster_representatives partition embeddings := by
          rw [get_cluster_representatives, List.mem_filterMap]
          exact ⟨(cid, m :: m2 :: tail), hmem, rfl⟩
        rw [hres] at hmemr
        refine ⟨a, l1, l3, ?_, ?_, ?_, ?_⟩
        · exact (lookup_eq_some_of_mem_nodup (reps_keys_nodup partition embeddings)).mp hmemr
        · rw [hsplit, hl2]
        · intro x hx
          have hxq : (x, getV embeddings x) ∈ pre := by
            rw [← hmap1]
            exact List.mem_map.mpr ⟨x, hx, rfl⟩
          have := hpre _ hxq
          rw [← he] at this
          exact this
        · intro x hx
          have hxq : (x, getV embeddings x) ∈ pairs := by
            rw [hpairs2]
            exact List.mem_map.mpr ⟨x, hx, rfl⟩
          have := hglob _ hxq
          rw [← he] at this
          exact this

/-- Concrete partition for the C4 witness: one cluster 0 with two members. -/
def wPart : List (Doc × Int) := [(dA, 0), (dB, 0)]

/-- Concrete embeddings for the C4 witness. -/
noncomputable def wEmb : Emb := [(dA, [0]), (dB, [2])]

/-- Witness for C4: the two-member cluster of `wPart` gets a representative that
is a member, minimizes distance to the centroid, and beats every earlier member
strictly. -/
theorem C4_representative_is_first_medoid_witness :
    ∃ r pre post,
      List.lookup 0 (get_cluster_representatives wPart wEmb) = some r ∧
      [dA, dB] = pre ++ r :: post ∧
      (∀ m ∈ pre,
        normV (subV (getV wEmb r) (meanVec ([dA, dB].map (getV wEmb)))) <
          normV (subV (getV wEmb m) (meanVec ([dA, dB].map (getV wEmb))))) ∧
      (∀ m ∈ [dA, dB],
        normV (subV (getV wEmb r) (meanVec ([dA, dB].map (getV wEmb)))) ≤
          normV (subV (getV wEmb m) (meanVec ([dA, dB].map (getV wEmb))))) :=
  (C4_representative_is_first_medoid wPart wEmb 0 [dA, dB]
    (by simp [wPart, groupByLabel, addToGroup])).2 (by norm_num)

lemma foldl_skip_noise {σ : Type} (f : σ → Doc × Int → σ) (l : List (Doc × Int)) :
    ∀ acc, l.foldl (fun a p => if p.2 = -1 then a else f a p) acc =
      (l.filter (fun p => p.2 ≠ -1)).foldl f acc := by
  induction l with
  | nil => intro acc; rfl
  | cons p rest ih =>
    intro acc
    by_cases h : p.2 = -1
    · rw [List.foldl_cons, if_pos h, List.filter_cons, ih]
      have hd : (decide (p.2 ≠ -1)) = false := by
        simp [h]
      rw [hd]
      simp
    · rw [List.foldl_cons, if_neg h, List.filter_cons, ih]
      have hd : (decide (p.2 ≠ -1)) = true := by
        simp [h]
      rw [hd]
      simp

/-- Bucket-collection loop of compute_centroids (src/lsh/temperature_sweep.py):
documents labelled -1 are skipped entirely; every other label collects its
members' embedding vectors in partition order. -/
noncomputable def centroidBuckets (embeddings : Emb) (partition : List (Doc × Int)) :
    List (Int × List Vec) :=
  partition.foldl (fun acc p =>
    if p.2 = -1 then acc else addToGroup acc p.2 (getV embeddings p.1)) []

/-- Per-label increment of the sizes dict of compute_centroids
(`sizes[cluster_id] += 1` over a defaultdict(int)). -/
def bumpSize : List (Int × ℕ) → Int → List (Int × ℕ)
  | [], cid => [(cid, 1)]
  | (k, n) :: rest, cid =>
    if k = cid then (k, n + 1) :: rest else (k, n) :: bumpSize rest cid

/-- Size-counting loop of compute_centroids, skipping label -1. -/
def clusterSizes (partition : List (Doc × Int)) : List (Int × ℕ) :=
  partition.foldl (fun acc p => if p.2 = -1 then acc else bumpSize acc p.2) []

/-- compute_centroids (src/lsh/temperature_sweep.py): bucket the embeddings by
non-noise label, then for each label take the arithmetic mean of the bucket and
divide by its Euclidean norm unless that norm is 0, in which case the
(necessarily zero) mean itself is kept; sizes count the bucketed documents. -/
noncomputable def compute_centroids (embeddings : Emb) (partition : List (Doc × Int)) :
    List (Int × Vec) × List (Int × ℕ) :=
  ((centroidBuckets embeddings partition).map (fun b =>
    (b.1,
      if normV (meanVec b.2) = 0 then meanVec b.2
      else (meanVec b.2).map (fun a => a / normV (meanVec b.2)))),
   clusterSizes partition)

lemma centroidBuckets_eq_gfold (embeddings : Emb) (partition : List (Doc × Int)) :
    centroidBuckets embeddings partition =
      gfold ((partition.filter (fun p => p.2 ≠ -1)).map
        (fun p => (p.2, getV embeddings p.1))) [] := by
  rw [centroidBuckets, foldl_skip_noise, gfold, List.foldl_map]

lemma gfold_keys {α : Type} (l : List (Int × α)) :
    ∀ (acc : List (Int × List α)) (c : Int),
      c ∈ (gfold l acc).map Prod.fst ↔ c ∈ acc.map Prod.fst ∨ c ∈ l.map Prod.fst := by
  induction l with
  | nil => intro acc c; simp [gfold]
  | cons kv rest ih =>
    intro acc c
    have step : gfold (kv :: rest) acc = gfold rest (addToGroup acc kv.1 kv.2) := rfl
    rw [step, ih, addToGroup_keys]
    simp only [List.map_cons, List.mem_cons]
    tauto

lemma filter_noise_filter_label (partition : List (Doc × Int)) (cid : Int)
    (hcid : cid ≠ -1) :
    (partition.filter (fun p => p.2 ≠ -1)).filter (fun p => p.2 = cid) =
      partition.filter (fun p => p.2 = cid) := by
  rw [List.filter_filter]
  refine List.filter_congr ?_
  intro x _
  by_cases h : x.2 = cid
  · simp [h, hcid]
  · simp [h]

lemma mem_labels_of_filter_noise (partition : List (Doc × Int)) (cid : Int)
    (hcid : cid ≠ -1) :
    cid ∈ (partition.filter (fun p => p.2 ≠ -1)).map Prod.snd ↔
      cid ∈ partition.map Prod.snd := by
  constructor
  · intro h
    rw [List.mem_map] at h
    obtain ⟨p, hp, rfl⟩ := h
    exact List.mem_map.mpr ⟨p, (List.mem_filter.mp hp).1, rfl⟩
  · intro h
    rw [List.mem_map] at h
    obtain ⟨p, hp, rfl⟩ := h
    refine List.mem_map.mpr ⟨p, List.mem_filter.mpr ⟨hp, ?_⟩, rfl⟩
    simp [hcid]

lemma centroidBuckets_lookup (embeddings : Emb) (partition : List (Doc × Int))
    (cid : Int) (hcid : cid ≠ -1) :
    List.lookup cid (centroidBuckets embeddings partition) =
      if cid ∈ partition.map Prod.snd then
        some ((partition.filter (fun p => p.2 = cid)).map (fun p => getV embeddings p.1))
      else none := by
  rw [centroidBuckets_eq_gfold, gfold_lookup]
  have hfm : ((partition.filter (fun p => p.2 ≠ -1)).map
        (fun p => (p.2, getV embeddings p.1))).filter (fun kv => kv.1 = cid) =
      ((partition.filter (fun p => p.2 ≠ -1)).filter (fun p => p.2 = cid)).map
        (fun p => (p.2, getV embeddings p.1)) := by
    rw [List.filter_map]
    rfl
  have hkeys : ((partition.filter (fun p => p.2 ≠ -1)).map
        (fun p => (p.2, getV embeddings p.1))).map Prod.fst =
      (partition.filter (fun p => p.2 ≠ -1)).map Prod.snd := by
    rw [List.map_map]
    rfl
  simp only [List.lookup, hfm, hkeys, filter_noise_filter_label partition cid hcid]
  rw [if_congr (mem_labels_of_filter_noise partition cid hcid) rfl rfl]
  by_cases h : cid ∈ partition.map Prod.snd
  · rw [if_pos h, if_pos h, List.map_map]
    rfl
  · rw [if_neg h, if_neg h]

lemma lookup_bumpSize (acc : List (Int × ℕ)) (cid : Int) (c : Int) :
    List.lookup c (bumpSize acc cid) =
      if c = cid then some (((List.lookup cid acc).getD 0) + 1)
      else List.lookup c acc := by
  induction acc with
  | nil =>
    by_cases h : c = cid
    · subst h
      rw [bumpSize, lookup_cons_self]
      simp
    · rw [bumpSize, if_neg h, lookup_cons_ne h]
  | cons g rest ih =>
    obtain ⟨gk, n⟩ := g
    by_cases hg : gk = cid
    · subst hg
      by_cases h : c = gk
      · subst h
        rw [bumpSize, if_pos rfl, if_pos rfl, lookup_cons_self, lookup_cons_self]
        simp
      · rw [bumpSize, if_pos rfl, if_neg h, lookup_cons_ne h, lookup_cons_ne h]
    · rw [bumpSize, if_neg hg]
      by_cases h : c = gk
      · subst h
        rw [lookup_cons_self, if_neg hg, lookup_cons_self]
      · rw [lookup_cons_ne h, lookup_cons_ne h, ih]
        by_cases hc : c = cid
        · rw [if_pos hc, if_pos hc, lookup_cons_ne (fun hc2 : cid = gk => hg hc2.symm)]
        · rw [if_neg hc, if_neg hc]

lemma sizes_foldl_lookup (keys : List Int) :
    ∀ (acc : List (Int × ℕ)) (c : Int),
      List.lookup c (keys.foldl bumpSize acc) =
        match List.lookup c acc with
        | some n => some (n + keys.count c)
        | none => if c ∈ keys then some (keys.count c) else none := by
  induction keys with
  | nil =>
    intro acc c
    cases hacc : List.lookup c acc with
    | some n => simp [hacc]
    | none => simp [hacc]
  | cons k rest ih =>
    intro acc c
    rw [List.foldl_cons, ih, lookup_bumpSize]
    by_cases hk : c = k
    · subst hk
      rw [if_pos rfl]
      have hcount : (c :: rest).count c = rest.count c + 1 := by
        rw [List.count_cons]
        simp
      cases hacc : List.lookup c acc with
      | some n =>
        simp only [hacc, hcount, Option.getD_some]
        congr 1
        omega
      | none =>
        simp only [hacc, hcount, Option.getD_none, List.mem_cons, true_or, if_pos]
        congr 1
        omega
    · have hb : (k == c) = false := beq_eq_false_iff_ne.mpr (fun h : k = c => hk h.symm)
      have hcount : (k :: rest).count c = rest.count c := by
        rw [List.count_cons, hb]
        simp
      rw [if_neg hk, hcount]
      cases hacc : List.lookup c acc with
      | some n => simp [hacc]
      | none =>
        simp only [hacc, List.mem_cons, hk, false_or]

lemma clusterSizes_lookup (partition : List (Doc × Int)) (cid : Int) (hcid : cid ≠ -1) :
    List.lookup cid (clusterSizes partition) =
      if cid ∈ partition.map Prod.snd then
        some ((partition.filter (fun p => p.2 = cid)).length)
      else none := by
  have hstep : clusterSizes partition =
      ((partition.filter (fun p => p.2 ≠ -1)).map Prod.snd).foldl bumpSize [] := by
    rw [clusterSizes, foldl_skip_noise, List.foldl_map]
  rw [hstep, sizes_foldl_lookup]
  have hcount : ((partition.filter (fun p => p.2 ≠ -1)).map Prod.snd).count cid =
      (partition.filter (fun p => p.2 = cid)).length := by
    rw [List.count, List.countP_map, ← filter_noise_filter_label partition cid hcid,
      ← List.countP_eq_length_filter]
    rfl
  simp only [List.lookup, hcount]
  rw [if_congr (mem_labels_of_filter_noise partition cid hcid) rfl rfl]

lemma lookup_map_values {α β : Type} (l : List (Int × α)) (f : Int × α → β) (c : Int) :
    List.lookup c (l.map (fun b => (b.1, f b))) = (List.lookup c l).map (fun a => f (c, a)) := by
  induction l with
  | nil => rfl
  | cons b rest ih =>
    obtain ⟨bk, bv⟩ := b
    by_cases h : c = bk
    · subst h
      rw [List.map_cons, lookup_cons_self, lookup_cons_self]
      rfl
    · rw [List.map_cons, lookup_cons_ne h, lookup_cons_ne h, ih]

lemma zipWith_self_mul (v : Vec) :
    List.zipWith (fun a b => a * b) v v = v.map (fun a => a * a) := by
  induction v with
  | nil => rfl
  | cons a t ih => simp [ih]

lemma normV_eq_zero_entries {v : Vec} (h : normV v = 0) : ∀ x ∈ v, x = 0 := by
  rw [normV, Real.sqrt_eq_zero'] at h
  have hnn : ∀ y ∈ v.map (fun a => a * a), 0 ≤ y := by
    intro y hy
    rw [List.mem_map] at hy
    obtain ⟨x, -, rfl⟩ := hy
    exact mul_self_nonneg x
  have hle : (v.map (fun a => a * a)).sum ≤ 0 := by
    rw [normSqV, dotV, zipWith_self_mul] at h
    exact h
  have hsum : (v.map (fun a => a * a)).sum = 0 :=
    le_antisymm hle (List.sum_nonneg hnn)
  intro x hx
  have hx2 : x * x ∈ v.map (fun a => a * a) := List.mem_map.mpr ⟨x, hx, rfl⟩
  exact mul_self_eq_zero.mp (List.all_zero_of_le_zero_le_of_sum_eq_zero hnn hsum hx2)

lemma bumpSize_keys (acc : List (Int × ℕ)) (cid : Int) (k : Int) :
    k ∈ (bumpSize acc cid).map Prod.fst ↔ k = cid ∨ k ∈ acc.map Prod.fst := by
  induction acc with
  | nil => simp [bumpSize]
  | cons g rest ih =>
    obtain ⟨gk, n⟩ := g
    by_cases h : gk = cid
    · subst h
      simp [bumpSize]
    · simp [bumpSize, h, ih]
      tauto

lemma sizes_foldl_keys (keys : List Int) :
    ∀ (acc : List (Int × ℕ)) (k : Int),
      k ∈ (keys.foldl bumpSize acc).map Prod.fst ↔ k ∈ acc.map Prod.fst ∨ k ∈ keys := by
  induction keys with
  | nil => intro acc k; simp
  | cons c rest ih =>
    intro acc k
    rw [List.foldl_cons, ih, bumpSize_keys]
    simp only [List.mem_cons]
    tauto

/-- C10: compute_centroids never emits an entry for the noise label -1 in either
centroids or sizes; for every non-noise label present in the partition, the
size is the number of its members and the centroid is the arithmetic mean of
its members' embeddings divided by its Euclidean norm, with the division
guarded: a mean of norm 0 is returned unnormalized, and such a mean is itself
the zero vector (all entries 0). -/
theorem C10_compute_centroids_noise_and_normalization (embeddings : Emb)
    (partition : List (Doc × Int)) :
    ((-1 : Int) ∉ (compute_centroids embeddings partition).1.map Prod.fst) ∧
    ((-1 : Int) ∉ (compute_centroids embeddings partition).2.map Prod.fst) ∧
    (∀ cid, cid ≠ -1 → cid ∈ partition.map Prod.snd →
      List.lookup cid (compute_centroids embeddings partition).2 =
        some ((partition.filter (fun p => p.2 = cid)).length) ∧
      List.lookup cid (compute_centroids embeddings partition).1 =
        some (if normV (meanVec ((partition.filter (fun p => p.2 = cid)).map
              (fun p => getV embeddings p.1))) = 0 then
            meanVec ((partition.filter (fun p => p.2 = cid)).map
              (fun p => getV embeddings p.1))
          else (meanVec ((partition.filter (fun p => p.2 = cid)).map
              (fun p => getV embeddings p.1))).map (fun a =>
            a / normV (meanVec ((partition.filter (fun p => p.2 = cid)).map
              (fun p => getV embeddings p.1))))) ∧
      (normV (meanVec ((partition.filter (fun p => p.2 = cid)).map
          (fun p => getV embeddings p.1))) = 0 →
        ∀ x ∈ meanVec ((partition.filter (fun p => p.2 = cid)).map
          (fun p => getV embeddings p.1)), x = 0)) := by
  have hkeys1 : (compute_centroids embeddings partition).1.map Prod.fst =
      (centroidBuckets embeddings partition).map Prod.fst := by
    rw [compute_centroids]
    rw [List.map_map]
    rfl
  refine ⟨?_, ?_, ?_⟩
  · intro h
    rw [hkeys1, centroidBuckets_eq_gfold] at h
    rcases (gfold_keys _ [] (-1)).mp h with h2 | h2
    · simp at h2
    · rw [List.map_map] at h2
      rw [List.mem_map] at h2
      obtain ⟨p, hp, hp2⟩ := h2
      have : p.2 = -1 := hp2
      exact (of_decide_eq_true (List.mem_filter.mp hp).2) this
  · intro h
    have hstep : clusterSizes partition =
        ((partition.filter (fun p => p.2 ≠ -1)).map Prod.snd).foldl bumpSize [] := by
      rw [clusterSizes, foldl_skip_noise, List.foldl_map]
    rw [compute_centroids] at h
    rw [hstep] at h
    rcases (sizes_foldl_keys _ [] (-1)).mp h with h2 | h2
    · simp at h2
    · rw [List.mem_map] at h2
      obtain ⟨p, hp, hp2⟩ := h2
      exact (of_decide_eq_true (List.mem_filter.mp hp).2) hp2
  · intro cid hcid hmem
    refine ⟨?_, ?_, ?_⟩
    · rw [compute_centroids, clusterSizes_lookup partition cid hcid, if_pos hmem]
    · rw [compute_centroids]
      rw [lookup_map_values (centroidBuckets embeddings partition)
        (fun b => if normV (meanVec b.2) = 0 then meanVec b.2
          else (meanVec b.2).map (fun a => a / normV (meanVec b.2))) cid]
      rw [centroidBuckets_lookup embeddings partition cid hcid, if_pos hmem]
      rfl
    · intro h0
      exact normV_eq_zero_entries h0

/-- Neighbours of `u` in an undirected edge list (either endpoint matches). -/
def adjOf (edges : List (Doc × Doc × ℝ)) (u : Doc) : List Doc :=
  edges.foldr (fun e acc =>
    if e.1 = u then e.2.1 :: acc else if e.2.1 = u then e.1 :: acc else acc) []

/-- Breadth-first traversal with explicit fuel, collecting reachable nodes; the
visited list only grows, which is all the totality property needs. -/
def bfsAux (edges : List (Doc × Doc × ℝ)) : ℕ → List Doc → List Doc → List Doc
  | 0, _, visited => visited
  | _ + 1, [], visited => visited
  | fuel + 1, u :: queue, visited =>
    bfsAux edges fuel (queue ++ ((adjOf edges u).filter (fun w => w ∉ visited)).dedup)
      (visited ++ ((adjOf edges u).filter (fun w => w ∉ visited)).dedup)

/-- Connected component of `v` (nx.connected_components restricted to the
component of one node), with fuel ample for the traversal. -/
def component (G : SimGraph) (v : Doc) : List Doc :=
  bfsAux G.edges (G.nodes.length * G.nodes.length + G.edges.length + 1) [v] [v]

/-- Python dict assignment `partition[node] = i`: update in place or append. -/
def dinsert (m : List (Doc × Int)) (k : Doc) (v : Int) : List (Doc × Int) :=
  match m with
  | [] => [(k, v)]
  | (k2, v2) :: rest => if k2 = k then (k2, v) :: rest else (k2, v2) :: dinsert rest k v

/-- Fallback clustering of cluster_graph: enumerate components of unvisited
nodes in node order and give every member of the component the same label. -/
def componentsPartition (G : SimGraph) : List (Doc × Int) :=
  (G.nodes.foldl (fun st node =>
    if node ∈ st.1 then st
    else (st.1 ++ component G node, st.2.1 + 1,
      (component G node).foldl (fun p m => dinsert p m st.2.1) st.2.2))
    (([], 0, []) : List Doc × Int × List (Doc × Int))).2.2

/-- cluster_graph (src/lsh/clustering.py): the Louvain community detector is an
optional external dependency (community.community_louvain), passed here as a
parameter; when it is absent the connected-components fallback labels the
graph. -/
def cluster_graph (community_louvain : Option (SimGraph → ℝ → List (Doc × Int)))
    (G : SimGraph) (resolution : ℝ) : List (Doc × Int) :=
  match community_louvain with
  | some best_partition => best_partition G resolution
  | none => componentsPartition G

/-- run_density_clustering (src/lsh/density_clustering.py): UMAP and HDBSCAN
are external library collaborators passed as parameters (their interface: one
row in, one row or label out); the repository code lists the ids, stacks the
embeddings in that order, reduces, clusters, and zips ids with labels. -/
def run_density_clustering (umap_fit_transform : List Vec → List Vec)
    (hdbscan_fit_predict : List Vec → List Int) (embeddings : Emb) :
    List (Doc × Int) :=
  (embeddings.map Prod.fst).zip
    (hdbscan_fit_predict (umap_fit_transform
      ((embeddings.map Prod.fst).map (getV embeddings))))

lemma adjOf_mem (edges : List (Doc × Doc × ℝ)) (u : Doc) (x : Doc)
    (h : x ∈ adjOf edges u) : ∃ e ∈ edges, x = e.1 ∨ x = e.2.1 := by
  induction edges with
  | nil => cases h
  | cons e rest ih =>
    rw [adjOf, List.foldr_cons] at h
    by_cases h1 : e.1 = u
    · rw [if_pos h1] at h
      rcases List.mem_cons.mp h with rfl | h2
      · exact ⟨e, List.mem_cons_self _ _, Or.inr rfl⟩
      · obtain ⟨e2, he2, hx⟩ := ih h2
        exact ⟨e2, List.mem_cons_of_mem _ he2, hx⟩
    · rw [if_neg h1] at h
      by_cases h2 : e.2.1 = u
      · rw [if_pos h2] at h
        rcases List.mem_cons.mp h with rfl | h3
        · exact ⟨e, List.mem_cons_self _ _, Or.inl rfl⟩
        · obtain ⟨e2, he2, hx⟩ := ih h3
          exact ⟨e2, List.mem_cons_of_mem _ he2, hx⟩
      · rw [if_neg h2] at h
        obtain ⟨e2, he2, hx⟩ := ih h
        exact ⟨e2, List.mem_cons_of_mem _ he2, hx⟩

lemma bfsAux_mono (edges : List (Doc × Doc × ℝ)) :
    ∀ (fuel : ℕ) (queue visited : List Doc) (x : Doc), x ∈ visited →
      x ∈ bfsAux edges fuel queue visited := by
  intro fuel
  induction fuel with
  | zero => intro queue visited x hx; exact hx
  | succ n ih =>
    intro queue visited x hx
    cases queue with
    | nil => exact hx
    | cons u rest =>
      rw [bfsAux]
      exact ih _ _ x (List.mem_append_left _ hx)

lemma bfsAux_sub (edges : List (Doc × Doc × ℝ)) :
    ∀ (fuel : ℕ) (queue visited : List Doc) (x : Doc),
      x ∈ bfsAux edges fuel queue visited →
      x ∈ visited ∨ ∃ e ∈ edges, x = e.1 ∨ x = e.2.1 := by
  intro fuel
  induction fuel with
  | zero => intro queue visited x hx; exact Or.inl hx
  | succ n ih =>
    intro queue visited x hx
    cases queue with
    | nil => exact Or.inl hx
    | cons u rest =>
      rw [bfsAux] at hx
      rcases ih _ _ x hx with h2 | h2
      · rcases List.mem_append.mp h2 with h3 | h3
        · exact Or.inl h3
        · have h4 : x ∈ adjOf edges u :=
            (List.mem_filter.mp (List.mem_dedup.mp h3)).1
          exact Or.inr (adjOf_mem edges u x h4)
      · exact Or.inr h2

lemma mem_component_self (G : SimGraph) (v : Doc) : v ∈ component G v :=
  bfsAux_mono G.edges _ [v] [v] v (List.mem_singleton_self v)

lemma component_sub (G : SimGraph) (v : Doc) (x : Doc) (h : x ∈ component G v) :
    x = v ∨ ∃ e ∈ G.edges, x = e.1 ∨ x = e.2.1 := by
  rcases bfsAux_sub G.edges _ [v] [v] x h with h2 | h2
  · exact Or.inl (List.mem_singleton.mp h2)
  · exact Or.inr h2

lemma dinsert_keys (m : List (Doc × Int)) (k : Doc) (v : Int) (x : Doc) :
    x ∈ (dinsert m k v).map Prod.fst ↔ x = k ∨ x ∈ m.map Prod.fst := by
  induction m with
  | nil => simp [dinsert]
  | cons g rest ih =>
    obtain ⟨k2, v2⟩ := g
    by_cases h : k2 = k
    · subst h
      simp [dinsert]
    · simp [dinsert, h, ih]
      tauto

lemma dinsert_nodup (m : List (Doc × Int)) (k : Doc) (v : Int)
    (h : (m.map Prod.fst).Nodup) : ((dinsert m k v).map Prod.fst).Nodup := by
  induction m with
  | nil => simp [dinsert]
  | cons g rest ih =>
    obtain ⟨k2, v2⟩ := g
    simp only [List.map_cons, List.nodup_cons] at h
    by_cases hk : k2 = k
    · subst hk
      rw [dinsert, if_pos rfl]
      simp only [List.map_cons, List.nodup_cons]
      exact h
    · rw [dinsert, if_neg hk]
      simp only [List.map_cons, List.nodup_cons]
      refine ⟨fun hc => ?_, ih h.2⟩
      rcases (dinsert_keys rest k v k2).mp hc with rfl | hmem
      · exact hk rfl
      · exact h.1 hmem

lemma dfold_keys (comp : List Doc) (lbl : Int) :
    ∀ (p : List (Doc × Int)) (x : Doc),
      x ∈ ((comp.foldl (fun p2 m => dinsert p2 m lbl) p).map Prod.fst) ↔
        x ∈ p.map Prod.fst ∨ x ∈ comp := by
  induction comp with
  | nil => intro p x; simp
  | cons m rest ih =>
    intro p x
    rw [List.foldl_cons, ih, dinsert_keys]
    simp only [List.mem_cons]
    tauto

lemma dfold_nodup (comp : List Doc) (lbl : Int) :
    ∀ (p : List (Doc × Int)), ((p.map Prod.fst).Nodup) →
      (((comp.foldl (fun p2 m => dinsert p2 m lbl) p).map Prod.fst).Nodup) := by
  induction comp with
  | nil => intro p h; exact h
  | cons m rest ih =>
    intro p h
    exact ih _ (dinsert_nodup p m lbl h)

/-- One step of the component-enumeration fold of componentsPartition. -/
def compStep (G : SimGraph) (st : List Doc × Int × List (Doc × Int)) (node : Doc) :
    List Doc × Int × List (Doc × Int) :=
  if node ∈ st.1 then st
  else (st.1 ++ component G node, st.2.1 + 1,
    (component G node).foldl (fun p m => dinsert p m st.2.1) st.2.2)

lemma componentsPartition_eq_fold (G : SimGraph) :
    componentsPartition G = (G.nodes.foldl (compStep G) ([], 0, [])).2.2 := rfl

lemma componentsFold_spec (G : SimGraph) :
    ∀ (nodes : List Doc) (st : List Doc × Int × List (Doc × Int)),
      (∀ x, x ∈ st.1 ↔ x ∈ st.2.2.map Prod.fst) →
      ((st.2.2.map Prod.fst).Nodup) →
      (∀ x, x ∈ (nodes.foldl (compStep G) st).1 ↔
        x ∈ (nodes.foldl (compStep G) st).2.2.map Prod.fst) ∧
      (((nodes.foldl (compStep G) st).2.2.map Prod.fst).Nodup) ∧
      (∀ x ∈ st.1, x ∈ (nodes.foldl (compStep G) st).1) ∧
      (∀ n ∈ nodes, n ∈ (nodes.foldl (compStep G) st).1) ∧
      (∀ x ∈ (nodes.foldl (compStep G) st).1,
        x ∈ st.1 ∨ ∃ n ∈ nodes, x ∈ component G n) := by
  intro nodes
  induction nodes with
  | nil =>
    intro st h1 h2
    refine ⟨h1, h2, fun x hx => hx, ?_, fun x hx => Or.inl hx⟩
    intro n hn
    cases hn
  | cons node rest ih =>
    intro st h1 h2
    rw [List.foldl_cons]
    by_cases hcase : node ∈ st.1
    · rw [show compStep G st node = st from by rw [compStep, if_pos hcase]]
      obtain ⟨c1, c2, c3, c4, c5⟩ := ih st h1 h2
      refine ⟨c1, c2, c3, ?_, ?_⟩
      · intro n hn
        rcases List.mem_cons.mp hn with rfl | hn2
        · exact c3 n hcase
        · exact c4 n hn2
      · intro x hx
        rcases c5 x hx with h3 | ⟨n, hn, hcomp⟩
        · exact Or.inl h3
        · exact Or.inr ⟨n, List.mem_cons_of_mem _ hn, hcomp⟩
    · have hstep : compStep G st node = (st.1 ++ component G node, st.2.1 + 1,
          (component G node).foldl (fun p m => dinsert p m st.2.1) st.2.2) := by
        rw [compStep, if_neg hcase]
      rw [hstep]
      have h1b : ∀ x, x ∈ st.1 ++ component G node ↔
          x ∈ ((component G node).foldl (fun p m => dinsert p m st.2.1) st.2.2).map Prod.fst := by
        intro x
        rw [List.mem_append, dfold_keys, h1]
      have h2b := dfold_nodup (component G node) st.2.1 st.2.2 h2
      obtain ⟨c1, c2, c3, c4, c5⟩ := ih (st.1 ++ component G node, st.2.1 + 1,
        (component G node).foldl (fun p m => dinsert p m st.2.1) st.2.2) h1b h2b
      refine ⟨c1, c2, ?_, ?_, ?_⟩
      · intro x hx
        exact c3 x (List.mem_append_left _ hx)
      · intro n hn
        rcases List.mem_cons.mp hn with rfl | hn2
        · exact c3 n (List.mem_append_right _ (mem_component_self G n))
        · exact c4 n hn2
      · intro x hx
        rcases c5 x hx with h3 | ⟨n, hn, hcomp⟩
        · rcases List.mem_append.mp h3 with h4 | h4
          · exact Or.inl h4
          · exact Or.inr ⟨node, List.mem_cons_self _ _, h4⟩
        · exact Or.inr ⟨n, List.mem_cons_of_mem _ hn, hcomp⟩

lemma componentsPartition_keys (G : SimGraph)
    (hend : ∀ e ∈ G.edges, e.1 ∈ G.nodes ∧ e.2.1 ∈ G.nodes) :
    (((componentsPartition G).map Prod.fst).Nodup) ∧
    (∀ x, x ∈ (componentsPartition G).map Prod.fst ↔ x ∈ G.nodes) := by
  obtain ⟨c1, c2, -, c4, c5⟩ :=
    componentsFold_spec G G.nodes ([], 0, []) (by simp) (by simp)
  rw [componentsPartition_eq_fold]
  refine ⟨c2, ?_⟩
  intro x
  constructor
  · intro hx
    rcases c5 x ((c1 x).mpr hx) with h3 | ⟨n, hn, hcomp⟩
    · cases h3
    · rcases component_sub G n x hcomp with rfl | ⟨e, he, hx2⟩
      · exact hn
      · rcases hx2 with rfl | rfl
        · exact (hend e he).1
        · exact (hend e he).2
  · intro hx
    exact (c1 x).mp (c4 x hx)

lemma lookup_isSome_mem {l : Emb} {u : Doc} (h : (List.lookup u l).isSome) :
    u ∈ l.map Prod.fst := by
  induction l with
  | nil => simp [List.lookup] at h
  | cons kv rest ih =>
    obtain ⟨k, v⟩ := kv
    by_cases hk : u = k
    · subst hk
      simp
    · rw [lookup_cons_ne hk] at h
      simp only [List.map_cons, List.mem_cons]
      exact Or.inr (ih h)

lemma build_graph_endpoints (candidates : List (Doc × Doc)) (embeddings : Emb)
    (threshold : ℝ) :
    ∀ e ∈ (build_similarity_graph candidates embeddings threshold).edges,
      e.1 ∈ (build_similarity_graph candidates embeddings threshold).nodes ∧
      e.2.1 ∈ (build_similarity_graph candidates embeddings threshold).nodes := by
  rintro ⟨a, b, w⟩ he
  obtain ⟨-, hu, hv, -, -⟩ := mem_build_edges.mp he
  exact ⟨lookup_isSome_mem hu, lookup_isSome_mem hv⟩

/-- C3: partition totality on both paths.  The density path returns a partition
whose key list is exactly the embeddings' key list (hence, keys being
duplicate-free, every id exactly once); the graph path (build_similarity_graph
followed by cluster_graph) assigns a label to every id of the embeddings,
isolated ids included, with duplicate-free keys; this holds for the
connected-components fallback and for any Louvain partitioner satisfying its
interface (a label for every node, no duplicates). -/
theorem C3_partition_totality (umap_fit_transform : List Vec → List Vec)
    (hdbscan_fit_predict : List Vec → List Int)
    (community_louvain : Option (SimGraph → ℝ → List (Doc × Int)))
    (embeddings : Emb) (candidates : List (Doc × Doc)) (threshold resolution : ℝ)
    (hemb : embeddings ≠ []) (hnd : (embeddings.map Prod.fst).Nodup)
    (humap : ∀ X, (umap_fit_transform X).length = X.length)
    (hhdb : ∀ X, (hdbscan_fit_predict X).length = X.length)
    (hlouvain : ∀ f, community_louvain = some f → ∀ G r,
      (((f G r).map Prod.fst).Nodup) ∧ (∀ x, x ∈ (f G r).map Prod.fst ↔ x ∈ G.nodes)) :
    ((run_density_clustering umap_fit_transform hdbscan_fit_predict embeddings).map
        Prod.fst = embeddings.map Prod.fst) ∧
    (((run_density_clustering umap_fit_transform hdbscan_fit_predict
        embeddings).map Prod.fst).Nodup) ∧
    (((cluster_graph community_louvain
        (build_similarity_graph candidates embeddings threshold) resolution).map
          Prod.fst).Nodup) ∧
    (∀ x, x ∈ (cluster_graph community_louvain
        (build_similarity_graph candidates embeddings threshold) resolution).map
          Prod.fst ↔ x ∈ embeddings.map Prod.fst) := by
  have hdens : (run_density_clustering umap_fit_transform hdbscan_fit_predict
      embeddings).map Prod.fst = embeddings.map Prod.fst := by
    rw [run_density_clustering]
    refine List.map_fst_zip _ _ ?_
    rw [hhdb, humap]
    simp
  have hnodes : (build_similarity_graph candidates embeddings threshold).nodes =
      embeddings.map Prod.fst := rfl
  refine ⟨hdens, by rw [hdens]; exact hnd, ?_, ?_⟩
  · cases hlv : community_louvain with
    | some f =>
      rw [cluster_graph]
      exact (hlouvain f hlv _ resolution).1
    | none =>
      rw [cluster_graph]
      exact (componentsPartition_keys _
        (build_graph_endpoints candidates embeddings threshold)).1
  · cases hlv : community_louvain with
    | some f =>
      intro x
      rw [cluster_graph, ← hnodes]
      exact (hlouvain f hlv _ resolution).2 x
    | none =>
      intro x
      rw [cluster_graph, ← hnodes]
      exact (componentsPartition_keys _
        (build_graph_endpoints candidates embeddings threshold)).2 x

/-- Identity manifold reduction used by the C3 witness. -/
def wUmap : List Vec → List Vec := fun X => X

/-- Constant-label clusterer used by the C3 witness. -/
def wHdb : List Vec → List Int := fun X => X.map (fun _ => 0)

/-- Witness for C3 at two concrete embeddings, no candidates, the fallback
partitioner and concrete numeric parameters. -/
theorem C3_partition_totality_witness :
    ((run_density_clustering wUmap wHdb wEmb).map Prod.fst = wEmb.map Prod.fst) ∧
    (((run_density_clustering wUmap wHdb wEmb).map Prod.fst).Nodup) ∧
    (((cluster_graph none (build_similarity_graph [] wEmb (7 / 10)) 1).map
        Prod.fst).Nodup) ∧
    (∀ x, x ∈ (cluster_graph none (build_similarity_graph [] wEmb (7 / 10)) 1).map
        Prod.fst ↔ x ∈ wEmb.map Prod.fst) :=
  C3_partition_totality wUmap wHdb none wEmb [] (7 / 10) 1
    (by simp [wEmb]) (by simp [wEmb, dA, dB])
    (fun X => rfl) (fun X => by simp [wHdb]) (fun f hf => by cases hf)

/-- One step of the greedy matching loop of greedy_centroid_match: a pair whose
base or target cluster is already matched is skipped; otherwise both clusters
are committed and the match recorded. -/
def greedyStep (st : List Int × List Int × List (Int × Int × ℝ))
    (p : ℝ × Int × Int) : List Int × List Int × List (Int × Int × ℝ) :=
  if p.2.1 ∈ st.1 ∨ p.2.2 ∈ st.2.1 then st
  else (st.1 ++ [p.2.1], st.2.1 ++ [p.2.2], st.2.2 ++ [(p.2.1, p.2.2, p.1)])

/-- The cross-pair list of greedy_centroid_match: (similarity, base id, target
id) for every base and target centroid, similarity being the plain dot product
of the (unit-normalized) centroids. -/
noncomputable def greedyPairs (base_centroids target_centroids : List (Int × Vec)) :
    List (ℝ × Int × Int) :=
  base_centroids.flatMap (fun b =>
    target_centroids.map (fun t => (dotV b.2 t.2, b.1, t.1)))

/-- pairs.sort(reverse=True, key=lambda x: x[0]): stable sort by descending
similarity. -/
noncomputable def greedySorted (base_centroids target_centroids : List (Int × Vec)) :
    List (ℝ × Int × Int) :=
  (greedyPairs base_centroids target_centroids).mergeSort (fun x y => decide (y.1 ≤ x.1))

/-- Final state (matched_base, matched_target, matches) of the greedy loop. -/
noncomputable def greedySt (base_centroids target_centroids : List (Int × Vec)) :
    List Int × List Int × List (Int × Int × ℝ) :=
  (greedySorted base_centroids target_centroids).foldl greedyStep ([], [], [])

/-- greedy_centroid_match (src/lsh/temperature_sweep.py): an empty side returns
None with every cluster of either side unmatched; otherwise all cross pairs are
scored by dot product, sorted by descending similarity (Python's stable sort),
greedily matched, and the average matched similarity (statistics.mean) is None
exactly when no match was committed. -/
noncomputable def greedy_centroid_match (base_centroids target_centroids : List (Int × Vec)) :
    Option ℝ × List (Int × Int × ℝ) × List Int × List Int :=
  if base_centroids = [] ∨ target_centroids = [] then
    (none, [], base_centroids.map Prod.fst, target_centroids.map Prod.fst)
  else
    ((if (greedySt base_centroids target_centroids).2.2 = [] then none
      else some ((((greedySt base_centroids target_centroids).2.2.map
          (fun m => m.2.2)).sum) /
        ((greedySt base_centroids target_centroids).2.2.length : ℝ))),
     (greedySt base_centroids target_centroids).2.2,
     (base_centroids.map Prod.fst).filter
       (fun b => b ∉ (greedySt base_centroids target_centroids).1),
     (target_centroids.map Prod.fst).filter
       (fun t => t ∉ (greedySt base_centroids target_centroids).2.1))

/-- Drift-row field `avg_centroid_similarity` written by run()
(src/lsh/temperature_sweep.py): `float(avg_sim) if avg_sim is not None else
0.0` — a missing average is coalesced to the plain number 0.0. -/
noncomputable def drift_avg_centroid_similarity (avg_sim : Option ℝ) : ℝ :=
  match avg_sim with
  | some s => s
  | none => 0

/-- C7 (amended): with an empty baseline or target side, greedy_centroid_match
returns a None average (no division by zero is performed), and the drift row of
run() records the plain value 0.0 for that condition instead of propagating the
null. -/
theorem C7_empty_side_none_average (base_centroids target_centroids : List (Int × Vec))
    (h : base_centroids = [] ∨ target_centroids = []) :
    (greedy_centroid_match base_centroids target_centroids).1 = none ∧
    drift_avg_centroid_similarity
      (greedy_centroid_match base_centroids target_centroids).1 = 0 := by
  rw [greedy_centroid_match, if_pos h]
  exact ⟨rfl, rfl⟩

/-- C7 counterexample to the propagation half of the claim: with an empty
baseline, greedy_centroid_match does return None, but the drift-row field is
the real number 0.0, not a null — the null does not propagate to the drift
output. -/
theorem C7_drift_output_coalesces_none :
    (greedy_centroid_match [] [((0 : Int), [(1 : ℝ)])]).1 = none ∧
    drift_avg_centroid_similarity
      (greedy_centroid_match [] [((0 : Int), [(1 : ℝ)])]).1 = 0 := by
  rw [greedy_centroid_match, if_pos (Or.inl rfl)]
  exact ⟨rfl, rfl⟩

/-- Witness for C7 at an empty baseline and a single target centroid. -/
theorem C7_empty_side_none_average_witness :
    (greedy_centroid_match [((3 : Int), [(1 : ℝ)])] []).1 = none ∧
    drift_avg_centroid_similarity
      (greedy_centroid_match [((3 : Int), [(1 : ℝ)])] []).1 = 0 :=
  C7_empty_side_none_average [((3 : Int), [(1 : ℝ)])] [] (Or.inr rfl)

lemma dotV_cons (a : ℝ) (u : Vec) (b : ℝ) (v : Vec) :
    dotV (a :: u) (b :: v) = a * b + dotV u v := by
  simp [dotV]

lemma normSqV_cons (a : ℝ) (u : Vec) : normSqV (a :: u) = a * a + normSqV u := by
  simp [normSqV, dotV]

lemma two_dot_le (u : Vec) : ∀ v : Vec, u.length = v.length →
    2 * dotV u v ≤ normSqV u + normSqV v := by
  induction u with
  | nil =>
    intro v hv
    cases v with
    | nil => simp [dotV, normSqV]
    | cons b v => simp at hv
  | cons a u ih =>
    intro v hv
    cases v with
    | nil => simp at hv
    | cons b v =>
      rw [dotV_cons, normSqV_cons, normSqV_cons]
      have h1 := ih v (by simpa using hv)
      nlinarith [sq_nonneg (a - b)]

lemma dot_le_one {u v : Vec} (hu : normSqV u = 1) (hv : normSqV v = 1)
    (hlen : u.length = v.length) : dotV u v ≤ 1 := by
  have := two_dot_le u v hlen
  rw [hu, hv] at this
  linarith

lemma subV_cons (a : ℝ) (u : Vec) (b : ℝ) (v : Vec) :
    subV (a :: u) (b :: v) = (a - b) :: subV u v := rfl

lemma normSq_sub (u : Vec) : ∀ v : Vec, u.length = v.length →
    normSqV (subV u v) = normSqV u - 2 * dotV u v + normSqV v := by
  induction u with
  | nil =>
    intro v hv
    cases v with
    | nil => simp [subV, normSqV, dotV]
    | cons b v => simp at hv
  | cons a u ih =>
    intro v hv
    cases v with
    | nil => simp at hv
    | cons b v =>
      rw [subV_cons, normSqV_cons, dotV_cons, normSqV_cons, normSqV_cons,
        ih v (by simpa using hv)]
      ring

lemma normSqV_eq_zero_entries {v : Vec} (h : normSqV v = 0) : ∀ x ∈ v, x = 0 := by
  apply normV_eq_zero_entries
  rw [normV, h, Real.sqrt_zero]

lemma eq_of_sub_entries_zero (u : Vec) : ∀ v : Vec, u.length = v.length →
    (∀ x ∈ subV u v, x = 0) → u = v := by
  induction u with
  | nil =>
    intro v hv _
    cases v with
    | nil => rfl
    | cons b v => simp at hv
  | cons a u ih =>
    intro v hv hz
    cases v with
    | nil => simp at hv
    | cons b v =>
      rw [subV_cons] at hz
      have h1 : a - b = 0 := hz _ (List.mem_cons_self _ _)
      have h2 := ih v (by simpa using hv) (fun x hx => hz x (List.mem_cons_of_mem _ hx))
      rw [sub_eq_zero] at h1
      rw [h1, h2]

lemma dot_eq_one_eq {u v : Vec} (hu : normSqV u = 1) (hv : normSqV v = 1)
    (hlen : u.length = v.length) (h : dotV u v = 1) : u = v := by
  have hs : normSqV (subV u v) = 0 := by
    rw [normSq_sub u v hlen, hu, hv, h]
    ring
  exact eq_of_sub_entries_zero u v hlen (normSqV_eq_zero_entries hs)

lemma nodup_app_single {l : List Int} {b : Int} (h : l.Nodup) (hb : b ∉ l) :
    (l ++ [b]).Nodup := by
  rw [List.nodup_append]
  refine ⟨h, List.nodup_singleton b, ?_⟩
  intro x hx hx2
  rw [List.mem_singleton] at hx2
  subst hx2
  exact hb hx

lemma filter_not_mem_append_single {keys : List Int} (hnd : keys.Nodup)
    {mB : List Int} {b : Int} (hb : b ∈ keys) (hbm : b ∉ mB) (c : Int → Vec) :
    (((keys.filter (fun k => k ∉ mB ++ [b])).map c : List Vec) : Multiset Vec) =
      (((keys.filter (fun k => k ∉ mB)).map c : List Vec) : Multiset Vec).erase (c b) := by
  have e1 : keys.filter (fun k => k ∉ mB ++ [b]) =
      (keys.filter (fun k => k ∉ mB)).filter (fun k => k ≠ b) := by
    rw [List.filter_filter]
    refine List.filter_congr ?_
    intro x _
    by_cases h1 : x = b
    · subst h1
      simp
    · by_cases h2 : x ∈ mB
      · simp [h1, h2]
      · simp [h1, h2]
  have hl : (keys.filter (fun k => k ∉ mB)).Nodup := hnd.filter _
  have hbl : b ∈ keys.filter (fun k => k ∉ mB) := by
    rw [List.mem_filter]
    exact ⟨hb, by simpa using hbm⟩
  have e2 : (keys.filter (fun k => k ∉ mB)).filter (fun k => k ≠ b) =
      (keys.filter (fun k => k ∉ mB)).erase b := by
    rw [hl.erase_eq_filter b]
    refine (List.filter_congr ?_).symm
    intro x _
    by_cases h1 : x = b
    · subst h1
      simp
    · simp [h1]
  rw [e1, e2]
  have hperm : List.Perm (keys.filter (fun k => k ∉ mB))
      (b :: (keys.filter (fun k => k ∉ mB)).erase b) := List.perm_cons_erase hbl
  have hperm2 : List.Perm ((keys.filter (fun k => k ∉ mB)).map c)
      (c b :: ((keys.filter (fun k => k ∉ mB)).erase b).map c) := by
    have := hperm.map c
    simpa using this
  rw [Multiset.coe_eq_coe.mpr hperm2]
  rw [← Multiset.cons_coe, Multiset.erase_cons_head]

lemma greedy_fold_spec (keys : List Int) (c : Int → Vec) (d : ℕ)
    (hkeysnd : keys.Nodup)
    (hunit : ∀ k ∈ keys, normSqV (c k) = 1)
    (hdim : ∀ k ∈ keys, (c k).length = d) :
    ∀ (rem : List (ℝ × Int × Int)) (mB mT : List Int) (ms : List (Int × Int × ℝ)),
      rem.Pairwise (fun x y => y.1 ≤ x.1) →
      (∀ p ∈ rem, p.2.1 ∈ keys ∧ p.2.2 ∈ keys ∧ p.1 = dotV (c p.2.1) (c p.2.2)) →
      mB ⊆ keys → mB.Nodup →
      ((((keys.filter (fun k => k ∉ mB)).map c : List Vec) : Multiset Vec) =
        (((keys.filter (fun k => k ∉ mT)).map c : List Vec) : Multiset Vec)) →
      (∀ b ∈ keys, b ∉ mB → ∀ t ∈ keys, t ∉ mT →
        (dotV (c b) (c t), b, t) ∈ rem) →
      (∀ m ∈ ms, m.2.2 = (1 : ℝ)) →
      ms.length = mB.length →
      ((∀ m ∈ (rem.foldl greedyStep (mB, mT, ms)).2.2, m.2.2 = (1 : ℝ)) ∧
       (∀ k ∈ keys, k ∈ (rem.foldl greedyStep (mB, mT, ms)).1) ∧
       (∀ k ∈ keys, k ∈ (rem.foldl greedyStep (mB, mT, ms)).2.1) ∧
       ((rem.foldl greedyStep (mB, mT, ms)).2.2.length =
         (rem.foldl greedyStep (mB, mT, ms)).1.length) ∧
       ((rem.foldl greedyStep (mB, mT, ms)).1.Nodup) ∧
       ((rem.foldl greedyStep (mB, mT, ms)).1 ⊆ keys)) := by
  intro rem
  induction rem with
  | nil =>
    intro mB mT ms hsorted hprem hBsub hBnd hmult hB hms hlen
    refine ⟨hms, ?_, ?_, hlen, hBnd, hBsub⟩
    · intro k hk
      by_contra hkm
      have hkf : k ∈ keys.filter (fun k2 => k2 ∉ mB) := by
        rw [List.mem_filter]
        exact ⟨hk, by simpa using hkm⟩
      have hmem : c k ∈
          (((keys.filter (fun k2 => k2 ∉ mT)).map c : List Vec) : Multiset Vec) := by
        rw [← hmult, Multiset.mem_coe]
        exact List.mem_map.mpr ⟨k, hkf, rfl⟩
      rw [Multiset.mem_coe, List.mem_map] at hmem
      obtain ⟨t0, ht0f, hct0⟩ := hmem
      rw [List.mem_filter] at ht0f
      exact absurd (hB k hk hkm t0 ht0f.1 (of_decide_eq_true ht0f.2))
        (List.not_mem_nil _)
    · intro k hk
      by_contra hkm
      have hkf : k ∈ keys.filter (fun k2 => k2 ∉ mT) := by
        rw [List.mem_filter]
        exact ⟨hk, by simpa using hkm⟩
      have hmem : c k ∈
          (((keys.filter (fun k2 => k2 ∉ mB)).map c : List Vec) : Multiset Vec) := by
        rw [hmult, Multiset.mem_coe]
        exact List.mem_map.mpr ⟨k, hkf, rfl⟩
      rw [Multiset.mem_coe, List.mem_map] at hmem
      obtain ⟨b0, hb0f, hcb0⟩ := hmem
      rw [List.mem_filter] at hb0f
      exact absurd (hB b0 hb0f.1 (of_decide_eq_true hb0f.2) k hk hkm)
        (List.not_mem_nil _)
  | cons p rem2 ih =>
    intro mB mT ms hsorted hprem hBsub hBnd hmult hB hms hlen
    rw [List.foldl_cons]
    obtain ⟨hsorthead, hsorttail⟩ := List.pairwise_cons.mp hsorted
    obtain ⟨hbk, htk, hps⟩ := hprem p (List.mem_cons_self _ _)
    by_cases hskip : p.2.1 ∈ mB ∨ p.2.2 ∈ mT
    · rw [show greedyStep (mB, mT, ms) p = (mB, mT, ms) from by
        rw [greedyStep, if_pos hskip]]
      refine ih mB mT ms hsorttail (fun q hq => hprem q (List.mem_cons_of_mem _ hq))
        hBsub hBnd hmult ?_ hms hlen
      intro b hbK hbm t htK htm
      have hq := hB b hbK hbm t htK htm
      rcases List.mem_cons.mp hq with heq | hq2
      · exfalso
        rcases hskip with h1 | h1
        · rw [← heq] at h1
          exact hbm h1
        · rw [← heq] at h1
          exact htm h1
      · exact hq2
    · obtain ⟨hbm, htm⟩ := not_or.mp hskip
      rw [show greedyStep (mB, mT, ms) p =
          (mB ++ [p.2.1], mT ++ [p.2.2], ms ++ [(p.2.1, p.2.2, p.1)]) from by
        rw [greedyStep, if_neg hskip]]
      have hbf : p.2.1 ∈ keys.filter (fun k => k ∉ mB) := by
        rw [List.mem_filter]
        exact ⟨hbk, by simpa using hbm⟩
      have hmemT : c p.2.1 ∈
          (((keys.filter (fun k => k ∉ mT)).map c : List Vec) : Multiset Vec) := by
        rw [← hmult, Multiset.mem_coe]
        exact List.mem_map.mpr ⟨p.2.1, hbf, rfl⟩
      rw [Multiset.mem_coe, List.mem_map] at hmemT
      obtain ⟨t0, ht0f, hct0⟩ := hmemT
      rw [List.mem_filter] at ht0f
      have ht0K := ht0f.1
      have ht0m : t0 ∉ mT := of_decide_eq_true ht0f.2
      have hq := hB p.2.1 hbk hbm t0 ht0K ht0m
      have hq1 : dotV (c p.2.1) (c t0) = 1 := by
        rw [hct0]
        exact hunit p.2.1 hbk
      have hs1 : p.1 = 1 := by
        rcases List.mem_cons.mp hq with heq | hq2
        · rw [← heq]
          exact hq1
        · have hle1 : (1 : ℝ) ≤ p.1 := by
            have h2 := hsorthead _ hq2
            rw [show (dotV (c p.2.1) (c t0), p.2.1, t0).1 = dotV (c p.2.1) (c t0)
              from rfl, hq1] at h2
            exact h2
          have hle2 : p.1 ≤ 1 := by
            rw [hps]
            exact dot_le_one (hunit _ hbk) (hunit _ htk)
              (by rw [hdim _ hbk, hdim _ htk])
          linarith
      have hceq : c p.2.1 = c p.2.2 := by
        apply dot_eq_one_eq (hunit _ hbk) (hunit _ htk)
          (by rw [hdim _ hbk, hdim _ htk])
        rw [← hps]
        exact hs1
      refine ih (mB ++ [p.2.1]) (mT ++ [p.2.2]) (ms ++ [(p.2.1, p.2.2, p.1)])
        hsorttail (fun q hq3 => hprem q (List.mem_cons_of_mem _ hq3))
        ?_ ?_ ?_ ?_ ?_ ?_
      · intro x hx
        rcases List.mem_append.mp hx with h1 | h1
        · exact hBsub h1
        · rw [List.mem_singleton] at h1
          subst h1
          exact hbk
      · exact nodup_app_single hBnd hbm
      · rw [filter_not_mem_append_single hkeysnd hbk hbm c,
          filter_not_mem_append_single hkeysnd htk htm c, hmult, hceq]
      · intro b hbK hbm2 t htK htm2
        have hbm3 : b ∉ mB := fun hc => hbm2 (List.mem_append_left _ hc)
        have hbne : b ≠ p.2.1 := fun hc => hbm2 (List.mem_append_right _
          (by rw [hc]; exact List.mem_singleton_self _))
        have htm3 : t ∉ mT := fun hc => htm2 (List.mem_append_left _ hc)
        have hq3 := hB b hbK hbm3 t htK htm3
        rcases List.mem_cons.mp hq3 with heq | hq4
        · exfalso
          apply hbne
          rw [← heq]
        · exact hq4
      · intro m hm
        rcases List.mem_append.mp hm with h1 | h1
        · exact hms m h1
        · rw [List.mem_singleton] at h1
          subst h1
          exact hs1
      · simp [List.length_append, hlen]

lemma sum_map_sims_ones {l : List (Int × Int × ℝ)} (h : ∀ m ∈ l, m.2.2 = (1 : ℝ)) :
    (l.map (fun m => m.2.2)).sum = (l.length : ℝ) := by
  induction l with
  | nil => simp
  | cons m rest ih =>
    rw [List.map_cons, List.sum_cons, h m (List.mem_cons_self _ _),
      ih (fun x hx => h x (List.mem_cons_of_mem _ hx))]
    rw [List.length_cons]
    push_cast
    ring

/-- C6: greedy_centroid_match applied to one non-empty mapping of labels to
unit-normalized centroids as both baseline and target yields average matched
similarity exactly 1, a match for every cluster, and empty unmatched sets on
both sides. -/
theorem C6_self_match_perfect_similarity (L : List (Int × Vec)) (d : ℕ)
    (hne : L ≠ []) (hnd : (L.map Prod.fst).Nodup)
    (hunit : ∀ v ∈ L.map Prod.snd, normSqV v = 1)
    (hdim : ∀ v ∈ L.map Prod.snd, v.length = d) :
    (greedy_centroid_match L L).1 = some 1 ∧
    (greedy_centroid_match L L).2.1.length = L.length ∧
    (greedy_centroid_match L L).2.2.1 = [] ∧
    (greedy_centroid_match L L).2.2.2 = [] := by
  have hguard : ¬(L = [] ∨ L = []) := by
    rw [or_self]
    exact hne
  have hcL : ∀ bp ∈ L, ((List.lookup bp.1 L).getD [] : Vec) = bp.2 := by
    intro bp hbp
    have hbp2 : (bp.1, bp.2) ∈ L := by
      rw [Prod.mk.eta]
      exact hbp
    rw [(lookup_eq_some_of_mem_nodup hnd).mp hbp2]
    rfl
  have hkunit : ∀ k ∈ L.map Prod.fst,
      normSqV ((List.lookup k L).getD [] : Vec) = 1 := by
    intro k hk
    rw [List.mem_map] at hk
    obtain ⟨bp, hbp, rfl⟩ := hk
    rw [hcL bp hbp]
    exact hunit bp.2 (List.mem_map.mpr ⟨bp, hbp, rfl⟩)
  have hkdim : ∀ k ∈ L.map Prod.fst,
      (((List.lookup k L).getD [] : Vec)).length = d := by
    intro k hk
    rw [List.mem_map] at hk
    obtain ⟨bp, hbp, rfl⟩ := hk
    rw [hcL bp hbp]
    exact hdim bp.2 (List.mem_map.mpr ⟨bp, hbp, rfl⟩)
  have hperm : List.Perm (greedySorted L L) (greedyPairs L L) :=
    List.mergeSort_perm (greedyPairs L L) (fun x y => decide (y.1 ≤ x.1))
  have hsortedP : (greedySorted L L).Pairwise (fun x y => y.1 ≤ x.1) := by
    have htrans : ∀ (a b c : ℝ × Int × Int),
        (decide (b.1 ≤ a.1)) = true → (decide (c.1 ≤ b.1)) = true →
        (decide (c.1 ≤ a.1)) = true := by
      intro a b c h1 h2
      rw [decide_eq_true_eq] at h1 h2 ⊢
      exact le_trans h2 h1
    have htotal : ∀ (a b : ℝ × Int × Int),
        ((decide (b.1 ≤ a.1)) || (decide (a.1 ≤ b.1))) = true := by
      intro a b
      rcases le_total b.1 a.1 with h | h
      · simp [h]
      · simp [h]
    have h1 := @List.sorted_mergeSort (ℝ × Int × Int)
      (fun x y => decide (y.1 ≤ x.1)) htrans htotal (greedyPairs L L)
    exact h1.imp (fun hab => of_decide_eq_true hab)
  have hpmem : ∀ p ∈ greedyPairs L L,
      p.2.1 ∈ L.map Prod.fst ∧ p.2.2 ∈ L.map Prod.fst ∧
      p.1 = dotV ((List.lookup p.2.1 L).getD []) ((List.lookup p.2.2 L).getD []) := by
    intro p hp
    rw [greedyPairs, List.mem_flatMap] at hp
    obtain ⟨bp, hbp, hp2⟩ := hp
    rw [List.mem_map] at hp2
    obtain ⟨tp, htp, rfl⟩ := hp2
    refine ⟨List.mem_map.mpr ⟨bp, hbp, rfl⟩, List.mem_map.mpr ⟨tp, htp, rfl⟩, ?_⟩
    rw [show (dotV bp.2 tp.2, bp.1, tp.1).2.1 = bp.1 from rfl,
      show (dotV bp.2 tp.2, bp.1, tp.1).2.2 = tp.1 from rfl,
      hcL bp hbp, hcL tp htp]
  have hprem : ∀ p ∈ greedySorted L L,
      p.2.1 ∈ L.map Prod.fst ∧ p.2.2 ∈ L.map Prod.fst ∧
      p.1 = dotV ((List.lookup p.2.1 L).getD []) ((List.lookup p.2.2 L).getD []) :=
    fun p hp => hpmem p (hperm.mem_iff.mp hp)
  have hfilter0 : (L.map Prod.fst).filter (fun k => k ∉ ([] : List Int)) =
      L.map Prod.fst := by
    rw [List.filter_eq_self]
    intro a _
    simp
  have hBinit : ∀ b ∈ L.map Prod.fst, b ∉ ([] : List Int) →
      ∀ t ∈ L.map Prod.fst, t ∉ ([] : List Int) →
      (dotV ((List.lookup b L).getD []) ((List.lookup t L).getD []), b, t) ∈
        greedySorted L L := by
    intro b hb _ t ht _
    rw [List.mem_map] at hb ht
    obtain ⟨bp, hbp, rfl⟩ := hb
    obtain ⟨tp, htp, rfl⟩ := ht
    rw [hperm.mem_iff, greedyPairs, List.mem_flatMap]
    refine ⟨bp, hbp, List.mem_map.mpr ⟨tp, htp, ?_⟩⟩
    rw [hcL bp hbp, hcL tp htp]
  obtain ⟨hsims, hcovB, hcovT, hlenms, hndB, hsubB⟩ :=
    greedy_fold_spec (L.map Prod.fst) (fun k => (List.lookup k L).getD []) d
      hnd hkunit hkdim (greedySorted L L) [] [] [] hsortedP hprem
      (by simp) (by simp) (by rw [hfilter0]) hBinit (by simp) (by simp)
  have hstEq : (greedySorted L L).foldl greedyStep ([], [], []) = greedySt L L := rfl
  rw [hstEq] at hsims hcovB hcovT hlenms hndB hsubB
  have hBperm : List.Perm (greedySt L L).1 (L.map Prod.fst) :=
    (List.perm_ext_iff_of_nodup hndB hnd).mpr
      (fun a => ⟨fun ha => hsubB ha, fun ha => hcovB a ha⟩)
  have hlenB : (greedySt L L).1.length = L.length := by
    rw [hBperm.length_eq, List.length_map]
  have hkeysne : L.map Prod.fst ≠ [] := by
    simpa using hne
  have hmslen : (greedySt L L).2.2.length = L.length := by
    rw [hlenms, hlenB]
  have hmsne : (greedySt L L).2.2 ≠ [] := by
    refine List.ne_nil_of_length_pos ?_
    rw [hmslen]
    exact List.length_pos.mpr hne
  rw [greedy_centroid_match, if_neg hguard]
  refine ⟨?_, hmslen, ?_, ?_⟩
  · rw [show ((if (greedySt L L).2.2 = [] then none
        else some ((((greedySt L L).2.2.map (fun m => m.2.2)).sum) /
          ((greedySt L L).2.2.length : ℝ))),
       (greedySt L L).2.2,
       (L.map Prod.fst).filter (fun b => b ∉ (greedySt L L).1),
       (L.map Prod.fst).filter (fun t => t ∉ (greedySt L L).2.1)).1 =
      (if (greedySt L L).2.2 = [] then none
        else some ((((greedySt L L).2.2.map (fun m => m.2.2)).sum) /
          ((greedySt L L).2.2.length : ℝ))) from rfl]
    rw [if_neg hmsne, sum_map_sims_ones hsims]
    rw [div_self]
    rw [Nat.cast_ne_zero]
    rw [hmslen]
    intro h0
    exact hne (List.length_eq_zero.mp h0)
  · rw [show ((if (greedySt L L).2.2 = [] then none
        else some ((((greedySt L L).2.2.map (fun m => m.2.2)).sum) /
          ((greedySt L L).2.2.length : ℝ))),
       (greedySt L L).2.2,
       (L.map Prod.fst).filter (fun b => b ∉ (greedySt L L).1),
       (L.map Prod.fst).filter (fun t => t ∉ (greedySt L L).2.1)).2.2.1 =
      (L.map Prod.fst).filter (fun b => b ∉ (greedySt L L).1) from rfl]
    rw [List.filter_eq_nil_iff]
    intro a ha
    simp only [decide_eq_true_eq, Decidable.not_not]
    exact hcovB a ha
  · rw [show ((if (greedySt L L).2.2 = [] then none
        else some ((((greedySt L L).2.2.map (fun m => m.2.2)).sum) /
          ((greedySt L L).2.2.length : ℝ))),
       (greedySt L L).2.2,
       (L.map Prod.fst).filter (fun b => b ∉ (greedySt L L).1),
       (L.map Prod.fst).filter (fun t => t ∉ (greedySt L L).2.1)).2.2.2 =
      (L.map Prod.fst).filter (fun t => t ∉ (greedySt L L).2.1) from rfl]
    rw [List.filter_eq_nil_iff]
    intro a ha
    simp only [decide_eq_true_eq, Decidable.not_not]
    exact hcovT a ha

/-- Concrete unit-normalized centroid mapping for the C6 witness. -/
noncomputable def wCent : List (Int × Vec) :=
  [((0 : Int), [(1 : ℝ), 0]), ((5 : Int), [(0 : ℝ), 1])]

/-- Witness for C6 at two orthonormal centroids used as both sides. -/
theorem C6_self_match_perfect_similarity_witness :
    (greedy_centroid_match wCent wCent).1 = some 1 ∧
    (greedy_centroid_match wCent wCent).2.1.length = wCent.length ∧
    (greedy_centroid_match wCent wCent).2.2.1 = [] ∧
    (greedy_centroid_match wCent wCent).2.2.2 = [] :=
  C6_self_match_perfect_similarity wCent 2 (by simp [wCent]) (by simp [wCent])
    (by
      intro v hv
      simp only [wCent, List.map_cons, List.map_nil, List.mem_cons,
        List.not_mem_nil, or_false] at hv
      rcases hv with rfl | rfl <;> simp [normSqV, dotV])
    (by
      intro v hv
      simp only [wCent, List.map_cons, List.map_nil, List.mem_cons,
        List.not_mem_nil, or_false] at hv
      rcases hv with rfl | rfl <;> simp)
